import Mathlib

/-!
# google-calendar-ics-fixer: the event normalization pass

A shallow embedding of `src/main.go`.  Go strings are byte sequences, so every
string of the program is a `List UInt8` here.  The clock and the random source
that `newUID` reads are made explicit arguments.  The calendar library
(`github.com/arran4/golang-ical`), `html.UnescapeString`, `regexp`, `fmt` and
`encoding/hex` are not part of the repository; the operations the program
calls are embedded from what those packages do, and the table of named HTML
character references is taken as a parameter.
-/

namespace IcsFixer

/-- A Go string: an immutable sequence of bytes. -/
abbrev Str := List UInt8

/-- The bytes of a string literal: its UTF-8 encoding, as in a Go source file. -/
def str (s : String) : Str := s.toUTF8.data.toList

/-! ## `fmt` and `encoding/hex`, as used by `newUID` -/

/-- The base-10 digit loop of `fmt`'s `fmtInteger`:
`for u >= 10 { next := u / 10; buf[i] = byte('0' + u - next*10); u = next }`
followed by the last digit.  The first argument bounds the number of rounds;
`u` rounds always suffice. -/
def fmtDigits : Nat → Nat → Str → Str
  | 0, u, buf => UInt8.ofNat (48 + u) :: buf
  | fuel + 1, u, buf =>
    if 10 ≤ u then
      fmtDigits fuel (u / 10) (UInt8.ofNat (48 + (u - (u / 10) * 10)) :: buf)
    else
      UInt8.ofNat (48 + u) :: buf

/-- The verb `%d` on a signed integer: the decimal digits of the magnitude,
with a leading `-` when the value is negative. -/
def fmtInteger (v : Int) : Str :=
  let u := v.natAbs
  let buf := fmtDigits u u []
  if v < 0 then 45 :: buf else buf

/-- An operand of `fmt.Sprintf`. -/
inductive Arg where
  | int (v : Int)
  | string (s : Str)

/-- The part of `fmt.Sprintf` that `newUID` exercises: literal bytes are
copied, `%d` formats an integer operand and `%s` copies a string operand.
Both calls in `newUID` give every verb an operand of its kind, so nothing else
of `fmt` is reached by the program; other directives are not modelled. -/
def Sprintf : Str → List Arg → Str
  | [], _ => []
  | 37 :: 100 :: rest, Arg.int v :: args => fmtInteger v ++ Sprintf rest args
  | 37 :: 115 :: rest, Arg.string s :: args => s ++ Sprintf rest args
  | c :: rest, args => c :: Sprintf rest args

/-- The digit alphabet of `encoding/hex`. -/
def hextable : Str := str "0123456789abcdef"

/-- Go's `hex.EncodeToString`: every byte `v` becomes `hextable[v>>4]`,
`hextable[v&0x0f]`. -/
def EncodeToString : Str → Str
  | [] => []
  | v :: rest =>
    hextable.getD (v.toNat / 16) 0 :: hextable.getD (v.toNat % 16) 0 :: EncodeToString rest

/-- The outcome of `rand.Read(b)` on the 8-byte buffer of `newUID`: `none`
when it reports an error, otherwise the 8 bytes read. -/
abbrev RandRead := Option { b : Str // b.length = 8 }

/-- The function `newUID(index)`, with `now` the value of `time.Now().UnixNano()` and `rnd`
the outcome of `rand.Read`. -/
def newUID (now : Int) (rnd : RandRead) (index : Int) : Str :=
  match rnd with
  | none => Sprintf (str "%d-%d@calendar.lkj.io") [Arg.int now, Arg.int index]
  | some b =>
    Sprintf (str "%d-%s-%d@calendar.lkj.io")
      [Arg.int now, Arg.string (EncodeToString b.val), Arg.int index]

/-! ## `html.UnescapeString` -/

/-- The two maps of package `html` from the name of a character reference
(the text after `&`, with its `;` when there is one) to what it stands for:
`entity` gives one code point and `entity2` two; a missing key reads as zero,
as a Go map lookup does.  The maps (some 2200 entries) are standard-library
data, not part of the repository, and are a parameter of the development. -/
structure EntityTables where
  entity : Str → Int
  entity2 : Str → Int × Int

/-- Wrap-around of signed 32-bit arithmetic (`rune` is `int32`). -/
def wrap32 (v : Int) : Int := (v + 2147483648) % 4294967296 - 2147483648

/-- Go's `utf8.EncodeRune`: the UTF-8 bytes of `r`; a value that is no code point
(negative, above U+10FFFF, or a surrogate) is encoded as U+FFFD. -/
def EncodeRune (r : Int) : Str :=
  let i := (r % 4294967296).toNat
  if i ≤ 0x7F then [UInt8.ofNat i]
  else if i ≤ 0x7FF then
    [UInt8.ofNat (0xC0 ||| (i >>> 6)), UInt8.ofNat (0x80 ||| (i &&& 0x3F))]
  else if i > 0x10FFFF ∨ (0xD800 ≤ i ∧ i ≤ 0xDFFF) then [0xEF, 0xBF, 0xBD]
  else if i ≤ 0xFFFF then
    [UInt8.ofNat (0xE0 ||| (i >>> 12)), UInt8.ofNat (0x80 ||| ((i >>> 6) &&& 0x3F)),
     UInt8.ofNat (0x80 ||| (i &&& 0x3F))]
  else
    [UInt8.ofNat (0xF0 ||| (i >>> 18)), UInt8.ofNat (0x80 ||| ((i >>> 12) &&& 0x3F)),
     UInt8.ofNat (0x80 ||| ((i >>> 6) &&& 0x3F)), UInt8.ofNat (0x80 ||| (i &&& 0x3F))]

/-- The table of package `html` that maps the numeric references 0x80..0x9F
to the code points Windows-1252 gives those bytes. -/
def replacementTable : List Int :=
  [0x20AC, 0x0081, 0x201A, 0x0192, 0x201E, 0x2026, 0x2020, 0x2021,
   0x02C6, 0x2030, 0x0160, 0x2039, 0x0152, 0x008D, 0x017D, 0x008F,
   0x0090, 0x2018, 0x2019, 0x201C, 0x201D, 0x2022, 0x2013, 0x2014,
   0x02DC, 0x2122, 0x0161, 0x203A, 0x0153, 0x009D, 0x017E, 0x0178]

/-- The constant `longestEntityWithoutSemicolon` of package `html`. -/
def longestEntityWithoutSemicolon : Nat := 6

/-- The digit loop of a numeric reference in `unescapeEntity`: reads the
digits of `s` (hexadecimal when `hex`), accumulating in 32-bit arithmetic, and
steps over one terminating `;`.  Returns the value and the index reached, `i`
being the index of the first byte of `s`. -/
def scanNumber (hex : Bool) : Str → Int → Nat → Int × Nat
  | [], x, i => (x, i)
  | c :: rest, x, i =>
    if hex then
      if 48 ≤ c ∧ c ≤ 57 then scanNumber hex rest (wrap32 (16 * x + c.toNat - 48)) (i + 1)
      else if 97 ≤ c ∧ c ≤ 102 then
        scanNumber hex rest (wrap32 (16 * x + c.toNat - 97 + 10)) (i + 1)
      else if 65 ≤ c ∧ c ≤ 70 then
        scanNumber hex rest (wrap32 (16 * x + c.toNat - 65 + 10)) (i + 1)
      else (x, if c ≠ 59 then i else i + 1)
    else if 48 ≤ c ∧ c ≤ 57 then scanNumber hex rest (wrap32 (10 * x + c.toNat - 48)) (i + 1)
    else (x, if c ≠ 59 then i else i + 1)

/-- The name loop of `unescapeEntity`: steps over ASCII letters and digits and
one terminating `;`.  Returns the index reached, `i` being the index of the
first byte of `s`. -/
def scanName : Str → Nat → Nat
  | [], i => i
  | c :: rest, i =>
    if (97 ≤ c ∧ c ≤ 122) ∨ (65 ≤ c ∧ c ≤ 90) ∨ (48 ≤ c ∧ c ≤ 57) then scanName rest (i + 1)
    else if c ≠ 59 then i else i + 1

/-- The loop `for j := maxLen; j > 1; j--` of `unescapeEntity`: the longest
proper start of `entityName`, of at most `j` and at least 2 bytes, that is a
key of `entity`; returns its code point and its length. -/
def longestKnownStart (T : EntityTables) (entityName : Str) : Nat → Option (Int × Nat)
  | 0 => none
  | j + 1 =>
    if j + 1 > 1 then
      if T.entity (entityName.take (j + 1)) ≠ 0 then
        some (T.entity (entityName.take (j + 1)), j + 1)
      else longestKnownStart T entityName j
    else none

/-- The function `unescapeEntity` of package `html` (with `attribute = false`),
on `s = b[src:]`, whose first byte is `&`.  Returns the bytes written at `dst`
and the number of source bytes consumed. -/
def unescapeEntity (T : EntityTables) (s : Str) : Str × Nat :=
  if s.length ≤ 1 then (s.take 1, 1)
  else if s.getD 1 0 = 35 then
    if s.length ≤ 3 then (s.take 1, 1)
    else
      let c := s.getD 2 0
      let hex : Bool := c = 120 || c = 88
      let i0 := if hex then 3 else 2
      let (x, i) := scanNumber hex (s.drop i0) 0 i0
      if i ≤ 3 then (s.take 1, 1)
      else
        let x1 :=
          if 0x80 ≤ x ∧ x ≤ 0x9F then replacementTable.getD (x - 0x80).toNat 0
          else if x = 0 ∨ (0xD800 ≤ x ∧ x ≤ 0xDFFF) ∨ x > 0x10FFFF then 0xFFFD
          else x
        (EncodeRune x1, i)
  else
    let i := scanName (s.drop 1) 1
    let entityName := (s.take i).drop 1
    if entityName.length = 0 then (s.take i, i)
    else if T.entity entityName ≠ 0 then (EncodeRune (T.entity entityName), i)
    else if (T.entity2 entityName).1 ≠ 0 then
      (EncodeRune (T.entity2 entityName).1 ++ EncodeRune (T.entity2 entityName).2, i)
    else
      match longestKnownStart T entityName
          (min (entityName.length - 1) longestEntityWithoutSemicolon) with
      | some (x, j) => (EncodeRune x, j + 1)
      | none => (s.take i, i)

/-- The loop of `html.UnescapeString`: bytes other than `&` are copied, and at
each `&` the bytes `unescapeEntity` writes are emitted and the source bytes it
consumed are stepped over (the first argument counts those still to step
over).  Go compacts the text in place in one buffer; as no reference of the
standard tables is shorter than what it stands for, the write position never
passes the read position and the buffer ends up holding this output. -/
def unescapeFrom (T : EntityTables) : Nat → Str → Str
  | _, [] => []
  | skip + 1, _ :: rest => unescapeFrom T skip rest
  | 0, c :: rest =>
    if c = 38 then
      (unescapeEntity T (c :: rest)).1 ++ unescapeFrom T ((unescapeEntity T (c :: rest)).2 - 1) rest
    else c :: unescapeFrom T 0 rest

/-- Go's `html.UnescapeString`: a string without `&` is returned as it is. -/
def UnescapeString (T : EntityTables) (s : Str) : Str :=
  if 38 ∈ s then unescapeFrom T 0 s else s

/-! ## The two regular expressions and `strings` -/

/-- The class `\s` of Go regular expressions: tab, newline, form feed,
carriage return, space. -/
def isSpace (c : UInt8) : Bool := c = 9 || c = 10 || c = 12 || c = 13 || c = 32

/-- A match of `reBR`, the pattern `(?i)<br\s*/?>`, at the start of `s`: its
length, or `none`.  The pieces are `<`, `b` or `B`, `r` or `R`, the longest run
of `\s`, an optional `/`, and `>`; no two consecutive pieces can match the same
byte, so the pattern matches in at most one way. -/
def matchBR (s : Str) : Option Nat :=
  match s with
  | lt :: b :: r :: rest =>
    if lt = 60 ∧ (b = 98 ∨ b = 66) ∧ (r = 114 ∨ r = 82) then
      let ws := (rest.takeWhile isSpace).length
      let rest1 := rest.dropWhile isSpace
      let slash := if rest1.head? = some 47 then 1 else 0
      if (rest1.drop slash).head? = some 62 then some (3 + ws + slash + 1) else none
    else none
  | _ => none

/-- A match of `reTag`, the pattern `<[^>]+>`, at the start of `s`: its length,
or `none`.  The pieces are `<`, one or more bytes other than `>`, and `>`: the
match ends at the first `>`, which must not follow the `<` directly.  (A
character of several bytes contains no `>` byte, so matching `[^>]` byte by
byte or character by character gives the same span.) -/
def matchTag (s : Str) : Option Nat :=
  match s with
  | lt :: c :: rest =>
    if lt = 60 ∧ c ≠ 62 then
      if 62 ∈ rest then some (2 + (rest.takeWhile (fun d => d ≠ 62)).length + 1) else none
    else none
  | _ => none

/-- Go's `re.ReplaceAllString(src, repl)` for a pattern that matches no empty
string and a replacement without `$`: scanning left to right, each match found
at the current position is replaced by `repl` and the scan resumes after it;
a byte where no match starts is copied.  The first argument counts the bytes of
the current match still to step over. -/
def replaceAllFrom (matchAt : Str → Option Nat) (repl : Str) : Nat → Str → Str
  | _, [] => []
  | skip + 1, _ :: rest => replaceAllFrom matchAt repl skip rest
  | 0, c :: rest =>
    match matchAt (c :: rest) with
    | some (n + 1) => repl ++ replaceAllFrom matchAt repl n rest
    | _ => c :: replaceAllFrom matchAt repl 0 rest

/-- Replacement of every match, from the start of the string. -/
def ReplaceAllString (matchAt : Str → Option Nat) (src repl : Str) : Str :=
  replaceAllFrom matchAt repl 0 src

/-- Whether `p` is the start of `s`. -/
def hasStart : Str → Str → Bool
  | [], _ => true
  | _ :: _, [] => false
  | a :: p, b :: s => a = b && hasStart p s

/-- Go's `strings.ReplaceAll(s, old, new)` for a non-empty `old`: the
non-overlapping occurrences of `old`, found left to right, are replaced. -/
def stringsReplaceFrom (old new : Str) : Nat → Str → Str
  | _, [] => []
  | skip + 1, _ :: rest => stringsReplaceFrom old new skip rest
  | 0, c :: rest =>
    if hasStart old (c :: rest) then new ++ stringsReplaceFrom old new (old.length - 1) rest
    else c :: stringsReplaceFrom old new 0 rest

/-- Go's `strings.ReplaceAll`, from the start of the string. -/
def ReplaceAll (s old new : Str) : Str := stringsReplaceFrom old new 0 s

/-- Go's `strings.Contains(s, substr)`. -/
def Contains : Str → Str → Bool
  | [], substr => substr.isEmpty
  | c :: s, substr => hasStart substr (c :: s) || Contains s substr

/-- The function `stripHTMLish`: decode the character references, turn the
line-break tags into newlines, delete the remaining tags, delete the carriage
returns. -/
def stripHTMLish (T : EntityTables) (s : Str) : Str :=
  let s := UnescapeString T s
  let s := ReplaceAllString matchBR s (str "\n")
  let s := ReplaceAllString matchTag s (str "")
  let s := ReplaceAll s (str "\r") (str "")
  s

/-- An excerpt of the standard `entity` map, enough to run the examples. -/
def sampleEntity (name : Str) : Int :=
  if name = str "amp;" then 38
  else if name = str "amp" then 38
  else if name = str "lt;" then 60
  else if name = str "lt" then 60
  else if name = str "gt;" then 62
  else if name = str "gt" then 62
  else if name = str "quot;" then 34
  else if name = str "nbsp;" then 160
  else 0

/-- Tables holding the excerpt `sampleEntity` and no two-code-point entry. -/
def sampleTables : EntityTables := ⟨sampleEntity, fun _ => (0, 0)⟩

/-! ## The calendar document (`github.com/arran4/golang-ical`) -/

/-- A property line of a component: its name, its parameters and its value. -/
structure IANAProperty where
  IANAToken : Str
  ICalParameters : List (Str × List Str)
  Value : Str
deriving DecidableEq

/-- A component nested in an event (an alarm, say); the program never looks
inside one. -/
structure Component where
  Name : Str
  Properties : List IANAProperty
deriving DecidableEq

/-- An event: the ordered list of its properties, and its nested components. -/
structure VEvent where
  Properties : List IANAProperty
  Components : List Component
deriving DecidableEq

/-- The property names the program uses. -/
def ComponentPropertyUniqueId : Str := str "UID"
def ComponentPropertyDescription : Str := str "DESCRIPTION"
def ComponentPropertyLocation : Str := str "LOCATION"
def ComponentPropertyRrule : Str := str "RRULE"
def ComponentPropertyRdate : Str := str "RDATE"
def ComponentPropertyExrule : Str := str "EXRULE"
def ComponentPropertyExdate : Str := str "EXDATE"
def ComponentPropertyRecurrenceId : Str := str "RECURRENCE-ID"

/-- The method `GetProperty`: the first property of the given name, if any. -/
def GetProperty (e : VEvent) (prop : Str) : Option IANAProperty :=
  e.Properties.find? (fun p => p.IANAToken = prop)

/-- The method `RemoveProperty` of the calendar library, in the version the
program is written against (it returns the removed properties, whose number
the program counts): drops every property of the given name, keeping the
others in order; returns the event and the properties removed. -/
def RemoveProperty (e : VEvent) (prop : Str) : VEvent × List IANAProperty :=
  ({ e with Properties := e.Properties.filter (fun p => p.IANAToken ≠ prop) },
   e.Properties.filter (fun p => p.IANAToken = prop))

/-- The method `AddProperty` without parameters: appends a property. -/
def AddProperty (e : VEvent) (prop value : Str) : VEvent :=
  { e with Properties := e.Properties ++ [⟨prop, [], value⟩] }

/-- The method `ReplaceProperty` of the calendar library, which is
`RemoveProperty` followed by `AddProperty`: removes every property of the
given name, then appends one with the new value and no parameters. -/
def ReplaceProperty (e : VEvent) (prop value : Str) : VEvent :=
  AddProperty (RemoveProperty e prop).1 prop value

/-- The function `getPropValue`: the value of the first property of the given
name and `true`, or the empty string and `false` when there is none. -/
def getPropValue (e : VEvent) (prop : Str) : Str × Bool :=
  match GetProperty e prop with
  | none => (str "", false)
  | some p => (p.Value, true)

/-! ## The normalization loop of `main` -/

/-- The list `recurrenceProps` of `main`. -/
def recurrenceProps : List Str :=
  [ComponentPropertyRrule, ComponentPropertyRdate, ComponentPropertyExrule,
   ComponentPropertyExdate, ComponentPropertyRecurrenceId]

/-- The inner loop `for _, prop := range recurrenceProps`: removes each listed
property from the event and adds the number removed to the counter. -/
def removeProps : List Str → VEvent → Nat → VEvent × Nat
  | [], e, recurrenceRemoved => (e, recurrenceRemoved)
  | prop :: props, e, recurrenceRemoved =>
    removeProps props (RemoveProperty e prop).1
      (recurrenceRemoved + (RemoveProperty e prop).2.length)

/-- The statement `if v, ok := getPropValue(e, prop); ok && strings.Contains(v, "<")
{ e.ReplaceProperty(prop, stripHTMLish(v)) }`. -/
def sanitizeProp (T : EntityTables) (e : VEvent) (prop : Str) : VEvent :=
  if (getPropValue e prop).2 && Contains (getPropValue e prop).1 (str "<") then
    ReplaceProperty e prop (stripHTMLish T (getPropValue e prop).1)
  else e

/-- The body of the loop over the events, for the event `e` at index `i`, with
`now` and `rnd` what the clock and the random source give to this round's call
of `newUID`.  Returns the event and the counter after the round. -/
def normalizeEvent (T : EntityTables) (now : Int) (rnd : RandRead) (i : Nat) (e : VEvent)
    (recurrenceRemoved : Nat) : VEvent × Nat :=
  let e1 := ReplaceProperty e ComponentPropertyUniqueId (newUID now rnd i)
  let (e2, removed) := removeProps recurrenceProps e1 recurrenceRemoved
  let e3 := sanitizeProp T e2 ComponentPropertyDescription
  let e4 := sanitizeProp T e3 ComponentPropertyLocation
  (e4, removed)

/-- What the program reads from outside during the loop: the clock value and
the outcome of the random read of the `k`-th call of `newUID` (one call per
event, so `k` is also the index of the event). -/
structure Env where
  now : Nat → Int
  rand : Nat → RandRead

/-- The loop `for i, e := range events`, from index `i` on. -/
def normalizeFrom (T : EntityTables) (env : Env) : Nat → List VEvent → Nat → List VEvent × Nat
  | _, [], recurrenceRemoved => ([], recurrenceRemoved)
  | i, e :: es, recurrenceRemoved =>
    let r := normalizeEvent T (env.now i) (env.rand i) i e recurrenceRemoved
    let rs := normalizeFrom T env (i + 1) es r.2
    (r.1 :: rs.1, rs.2)

/-- The state after the loop: the events, and the two numbers `main` reports,
`len(events)` and `recurrenceRemoved`. -/
structure Outcome where
  events : List VEvent
  eventCount : Nat
  recurrenceRemoved : Nat

/-- The normalization pass of `main`: the counter starts at 0 and the loop
runs over all events. -/
def normalize (T : EntityTables) (env : Env) (events : List VEvent) : Outcome :=
  let r := normalizeFrom T env 0 events 0
  { events := r.1, eventCount := events.length, recurrenceRemoved := r.2 }

/-- A property without parameters. -/
def prop (name value : String) : IANAProperty := ⟨str name, [], str value⟩

/-- An environment whose clock always reads `t` and whose random source always
gives `r`. -/
def constEnv (t : Int) (r : RandRead) : Env := ⟨fun _ => t, fun _ => r⟩

/-! ## Vocabulary of the statements -/

/-- The properties of the given name in a property list, in order. -/
def named (name : Str) (ps : List IANAProperty) : List IANAProperty :=
  ps.filter (fun p => p.IANAToken = name)

/-- The number of properties of the given name that an event carries. -/
def occurrences (name : Str) (e : VEvent) : Nat := (named name e.Properties).length

/-- The decimal numeral of a natural number, most significant digit first,
by way of `Nat.digits`. -/
def decimalNat (n : Nat) : Str :=
  if n = 0 then [48] else (Nat.digits 10 n).reverse.map (fun d => UInt8.ofNat (48 + d))

/-- The decimal numeral of an integer: a `-` sign when negative, then the
numeral of the magnitude. -/
def decimal (v : Int) : Str :=
  if v < 0 then 45 :: decimalNat v.natAbs else decimalNat v.natAbs

/-- What the sanitizing statement of the loop makes of the properties of the
name it is run for: when the first one has a value containing `<`, a single
property with the stripped value; the list as it is otherwise. -/
def sanitizedNamed (T : EntityTables) (name : Str) (l : List IANAProperty) :
    List IANAProperty :=
  match l with
  | [] => []
  | p :: _ => if 60 ∈ p.Value then [⟨name, [], stripHTMLish T p.Value⟩] else l

/-- Reads a string of decimal digits back, continuing from the value `acc`. -/
def readDigits (acc : Nat) (s : Str) : Nat :=
  s.foldl (fun a c => 10 * a + (c.toNat - 48)) acc

/-- No `<` of the string opens a span that `reTag` matches: a `<` that has a
`>` somewhere after it has one right after it. -/
def noOpenTag : Str → Prop
  | [] => True
  | c :: s => (c = 60 → 62 ∈ s → s.head? = some 62) ∧ noOpenTag s

/-- A lowercase hexadecimal digit: `0`..`9` or `a`..`f`. -/
def isLowerHex (c : UInt8) : Bool :=
  (48 ≤ c.toNat && c.toNat ≤ 57) || (97 ≤ c.toNat && c.toNat ≤ 102)

/-- The value of a lowercase hexadecimal digit. -/
def hexValue (c : UInt8) : Nat := if c.toNat ≤ 57 then c.toNat - 48 else c.toNat - 87

/-- Reads a hexadecimal string back: each pair of digits gives one byte. -/
def decodeHex : Str → Str
  | hi :: lo :: rest => UInt8.ofNat (16 * hexValue hi + hexValue lo) :: decodeHex rest
  | _ => []

/-- A byte that may stand in an identifier: printable ASCII other than space,
`;`, `:`, `,` and the double quote; this leaves out every whitespace and
control character. -/
def isTokenByte (c : UInt8) : Bool :=
  33 ≤ c.toNat && c.toNat ≤ 126 && c.toNat ≠ 59 && c.toNat ≠ 58 && c.toNat ≠ 44
    && c.toNat ≠ 34

/-- The names of the properties the loop reads or writes. -/
def touchedNames : List Str :=
  [str "UID", str "RRULE", str "RDATE", str "EXRULE", str "EXDATE", str "RECURRENCE-ID",
   str "DESCRIPTION", str "LOCATION"]

/-- The properties of other names than the given ones, in order. -/
def otherThan (names : List Str) (ps : List IANAProperty) : List IANAProperty :=
  ps.filter (fun p => p.IANAToken ∉ names)

/-- The text of a line-break tag: `<`, the two letters `x` and `y`, the
whitespace `ws`, a `/` when `slash`, and `>`. -/
def lineBreakTag (x y : UInt8) (ws : Str) (slash : Bool) : Str :=
  60 :: x :: y :: (ws ++ ((if slash then [47] else []) ++ [62]))

/-- A line-break tag: `<`, `b` or `B`, `r` or `R`, zero or more whitespace
characters (tab, newline, form feed, carriage return, space), an optional `/`,
and `>`. -/
def isLineBreakTag (t : Str) : Prop :=
  ∃ (x y : UInt8) (ws : Str) (slash : Bool),
    (x = 98 ∨ x = 66) ∧ (y = 114 ∨ y = 82) ∧ (∀ c ∈ ws, isSpace c = true)
      ∧ t = lineBreakTag x y ws slash

/-- The property with its value blanked when its name is UID, and the
property itself otherwise. -/
def eraseUIDValue (p : IANAProperty) : IANAProperty :=
  if p.IANAToken = str "UID" then { p with Value := [] } else p

/-- Two events are identical except for the values of their UID properties:
the same properties (names, parameters, values) in the same order once the UID
values are blanked, and the same nested components. -/
def sameButUID (a b : VEvent) : Prop :=
  a.Properties.map eraseUIDValue = b.Properties.map eraseUIDValue
    ∧ a.Components = b.Components

/-- An event with two identifiers, two `RDATE` and one `RRULE`, a location
with markup and a description without. -/
def sampleEvent : VEvent :=
  ⟨[prop "UID" "old-1", prop "RDATE" "20240101", prop "SUMMARY" "s", prop "RRULE" "FREQ=DAILY",
    prop "UID" "old-2", prop "RDATE" "20240102", prop "LOCATION" "<b>Room</b> 1",
    prop "DESCRIPTION" "plain &amp; simple"], []⟩

/-- An event with a summary only. -/
def plainEvent : VEvent := ⟨[prop "SUMMARY" "t"], []⟩

/-- A document of two events. -/
def sampleDoc : List VEvent := [sampleEvent, plainEvent]

/-! ## Properties of the calendar operations -/

theorem named_filter_ne (name q : Str) (ps : List IANAProperty) :
    named name (ps.filter (fun p => p.IANAToken ≠ q)) = if name = q then [] else named name ps := by
  induction ps with
  | nil => simp [named]
  | cons p ps ih =>
    unfold named at ih ⊢
    by_cases hq : p.IANAToken = q
    · by_cases hn : name = q
      · simp [List.filter_cons, hq, hn]
      · have hpn : ¬ p.IANAToken = name := fun h => hn (h.symm.trans hq)
        have hqn : ¬ q = name := fun h => hn h.symm
        simpa [List.filter_cons, hq, hn, hpn, hqn] using ih
    · by_cases hn : name = q
      · subst hn
        simp [List.filter_cons, hq]
      · by_cases hpn : p.IANAToken = name
        · simpa [List.filter_cons, hq, hn, hpn] using ih
        · simpa [List.filter_cons, hq, hn, hpn] using ih

theorem named_RemoveProperty (e : VEvent) (q name : Str) :
    named name (RemoveProperty e q).1.Properties
      = if name = q then [] else named name e.Properties := by
  simp only [RemoveProperty]
  exact named_filter_ne name q e.Properties

theorem named_ReplaceProperty (e : VEvent) (q v name : Str) :
    named name (ReplaceProperty e q v).Properties
      = if name = q then [⟨q, [], v⟩] else named name e.Properties := by
  have h := named_RemoveProperty e q name
  unfold named at h ⊢
  simp only [ReplaceProperty, AddProperty, List.filter_append, h]
  by_cases hn : name = q
  · subst hn; simp
  · have hqn : ¬ q = name := fun h => hn h.symm
    simp [hn, hqn]

theorem removeProps_fst (props : List Str) (e : VEvent) (n : Nat) (name : Str) :
    named name (removeProps props e n).1.Properties
      = if name ∈ props then [] else named name e.Properties := by
  induction props generalizing e n with
  | nil => simp [removeProps]
  | cons q props ih =>
    simp only [removeProps, ih, named_RemoveProperty]
    by_cases hq : name = q
    · simp [hq]
    · by_cases hm : name ∈ props <;> simp [hq, hm]

theorem removeProps_Components (props : List Str) (e : VEvent) (n : Nat) :
    (removeProps props e n).1.Components = e.Components := by
  induction props generalizing e n with
  | nil => simp [removeProps]
  | cons q props ih => simp only [removeProps, ih, RemoveProperty]

theorem removeProps_snd (props : List Str) (hnd : props.Nodup) (e : VEvent) (n : Nat) :
    (removeProps props e n).2 = n + (props.map (fun q => occurrences q e)).sum := by
  induction props generalizing e n with
  | nil => simp [removeProps]
  | cons q props ih =>
    have hq : q ∉ props := (List.nodup_cons.mp hnd).1
    have hrest : ∀ r ∈ props, occurrences r (RemoveProperty e q).1 = occurrences r e := by
      intro r hr
      have hrq : ¬ r = q := fun h => hq (h ▸ hr)
      simp [occurrences, named_RemoveProperty, hrq]
    simp only [removeProps, ih (List.nodup_cons.mp hnd).2, List.map_cons, List.sum_cons]
    rw [List.map_congr_left hrest]
    simp only [occurrences, named, RemoveProperty]
    omega

theorem getPropValue_eq (e : VEvent) (name : Str) :
    getPropValue e name
      = match named name e.Properties with
        | [] => (str "", false)
        | p :: _ => (p.Value, true) := by
  unfold getPropValue GetProperty named
  induction e.Properties with
  | nil => simp
  | cons p ps ih =>
    by_cases hp : p.IANAToken = name
    · simp [hp]
    · simp only [List.find?_cons, hp, decide_False, List.filter_cons]
      exact ih

theorem Contains_lt (v : Str) : Contains v (str "<") = true ↔ 60 ∈ v := by
  have hs : str "<" = [60] := by decide
  rw [hs]
  induction v with
  | nil => simp [Contains]
  | cons c v ih =>
    simp only [Contains, hasStart, Bool.or_eq_true, ih, List.mem_cons, Bool.and_true,
      decide_eq_true_eq]

theorem named_sanitizeProp (T : EntityTables) (e : VEvent) (q name : Str) :
    named name (sanitizeProp T e q).Properties
      = if name = q then sanitizedNamed T q (named q e.Properties)
        else named name e.Properties := by
  unfold sanitizeProp
  rw [getPropValue_eq]
  cases hl : named q e.Properties with
  | nil =>
    by_cases hn : name = q
    · subst hn; simp [sanitizedNamed, hl]
    · simp [hn]
  | cons p l =>
    by_cases hc : (60 : UInt8) ∈ p.Value
    · have hc2 := (Contains_lt p.Value).mpr hc
      simp [hc2, named_ReplaceProperty, sanitizedNamed, hc]
    · have hc2 : Contains p.Value (str "<") = false := by
        rw [Bool.eq_false_iff]
        exact fun h => hc ((Contains_lt p.Value).mp h)
      by_cases hn : name = q
      · subst hn; simp [hc2, sanitizedNamed, hc, hl]
      · simp [hc2, hn]

/-! ## The loop body and the loop -/

theorem removeProps_fst_counter (props : List Str) (e : VEvent) (n m : Nat) :
    (removeProps props e n).1 = (removeProps props e m).1 := by
  induction props generalizing e n m with
  | nil => simp [removeProps]
  | cons q props ih => simp only [removeProps]; exact ih _ _ _

theorem normalizeEvent_fst_counter (T : EntityTables) (now : Int) (rnd : RandRead) (i : Nat)
    (e : VEvent) (n : Nat) :
    (normalizeEvent T now rnd i e n).1 = (normalizeEvent T now rnd i e 0).1 := by
  simp only [normalizeEvent]
  rw [removeProps_fst_counter recurrenceProps _ n 0]

theorem recurrenceProps_eq :
    recurrenceProps = [str "RRULE", str "RDATE", str "EXRULE", str "EXDATE", str "RECURRENCE-ID"] :=
  rfl

theorem named_normalizeEvent (T : EntityTables) (now : Int) (rnd : RandRead) (i : Nat)
    (e : VEvent) (n : Nat) (name : Str) :
    named name (normalizeEvent T now rnd i e n).1.Properties
      = if name = str "UID" then [⟨str "UID", [], newUID now rnd i⟩]
        else if name ∈ recurrenceProps then []
        else if name = str "DESCRIPTION" ∨ name = str "LOCATION" then
          sanitizedNamed T name (named name e.Properties)
        else named name e.Properties := by
  have hLD : ¬ str "LOCATION" = str "DESCRIPTION" := by decide
  have hLU : ¬ str "LOCATION" = str "UID" := by decide
  have hDU : ¬ str "DESCRIPTION" = str "UID" := by decide
  have hLR : str "LOCATION" ∉ recurrenceProps := by decide
  have hDR : str "DESCRIPTION" ∉ recurrenceProps := by decide
  have hUR : str "UID" ∉ recurrenceProps := by decide
  simp only [normalizeEvent, ComponentPropertyLocation, ComponentPropertyDescription,
    ComponentPropertyUniqueId, named_sanitizeProp, removeProps_fst, named_ReplaceProperty,
    hLD, hLU, hDU, hLR, hDR, if_false]
  by_cases h1 : name = str "LOCATION"
  · subst h1; simp [hLD, hLU, hLR]
  · by_cases h2 : name = str "DESCRIPTION"
    · subst h2; simp [hDU, hDR, h1]
    · by_cases h3 : name = str "UID"
      · subst h3; simp [hUR, h1, h2]
      · by_cases h4 : name ∈ recurrenceProps <;> simp [h1, h2, h3, h4]

theorem normalizeEvent_Components (T : EntityTables) (now : Int) (rnd : RandRead) (i : Nat)
    (e : VEvent) (n : Nat) : (normalizeEvent T now rnd i e n).1.Components = e.Components := by
  simp only [normalizeEvent, sanitizeProp]
  split <;> split <;>
    simp [ReplaceProperty, AddProperty, RemoveProperty, removeProps_Components]

theorem normalizeEvent_snd (T : EntityTables) (now : Int) (rnd : RandRead) (i : Nat)
    (e : VEvent) (n : Nat) :
    (normalizeEvent T now rnd i e n).2
      = n + (occurrences (str "RRULE") e + occurrences (str "RDATE") e
          + occurrences (str "EXRULE") e + occurrences (str "EXDATE") e
          + occurrences (str "RECURRENCE-ID") e) := by
  have hnd : recurrenceProps.Nodup := by decide
  have h1 : ¬ str "RRULE" = str "UID" := by decide
  have h2 : ¬ str "RDATE" = str "UID" := by decide
  have h3 : ¬ str "EXRULE" = str "UID" := by decide
  have h4 : ¬ str "EXDATE" = str "UID" := by decide
  have h5 : ¬ str "RECURRENCE-ID" = str "UID" := by decide
  simp only [normalizeEvent, removeProps_snd recurrenceProps hnd]
  simp only [recurrenceProps_eq, List.map_cons, List.map_nil, List.sum_cons, List.sum_nil,
    occurrences, named_ReplaceProperty, ComponentPropertyUniqueId, h1, h2, h3, h4, h5, if_false]
  omega

theorem normalizeFrom_getElem? (T : EntityTables) (env : Env) (i : Nat) (es : List VEvent)
    (n k : Nat) :
    (normalizeFrom T env i es n).1[k]?
      = (es[k]?).map
          (fun e => (normalizeEvent T (env.now (i + k)) (env.rand (i + k)) (i + k) e 0).1) := by
  induction es generalizing i n k with
  | nil => simp [normalizeFrom]
  | cons e es ih =>
    cases k with
    | zero =>
      simp only [normalizeFrom, List.getElem?_cons_zero, Option.map_some', Nat.add_zero]
      rw [normalizeEvent_fst_counter]
    | succ k =>
      simp only [normalizeFrom, List.getElem?_cons_succ, ih]
      have hk : i + 1 + k = i + (k + 1) := by omega
      rw [hk]

theorem normalizeFrom_length (T : EntityTables) (env : Env) (i : Nat) (es : List VEvent)
    (n : Nat) : (normalizeFrom T env i es n).1.length = es.length := by
  induction es generalizing i n with
  | nil => simp [normalizeFrom]
  | cons e es ih => simp [normalizeFrom, ih]

theorem normalizeFrom_snd (T : EntityTables) (env : Env) (i : Nat) (es : List VEvent)
    (n : Nat) :
    (normalizeFrom T env i es n).2
      = n + (es.map (fun e => occurrences (str "RRULE") e + occurrences (str "RDATE") e
          + occurrences (str "EXRULE") e + occurrences (str "EXDATE") e
          + occurrences (str "RECURRENCE-ID") e)).sum := by
  induction es generalizing i n with
  | nil => simp [normalizeFrom]
  | cons e es ih =>
    simp only [normalizeFrom, ih, normalizeEvent_snd, List.map_cons, List.sum_cons]
    omega

/-- Every event of the outcome is the loop body applied to the event at the
same index of the input. -/
theorem normalize_getElem? (T : EntityTables) (env : Env) (events : List VEvent) (k : Nat) :
    (normalize T env events).events[k]?
      = (events[k]?).map
          (fun e => (normalizeEvent T (env.now k) (env.rand k) k e 0).1) := by
  simp only [normalize, normalizeFrom_getElem?, Nat.zero_add]

/-! ## Recurrence elimination, the counter, the identifier -/

/-- C1. Recurrence elimination: whatever the clock and the random source give
and whatever properties the events carried, after the normalization loop no
event of the document carries a property named RRULE, RDATE, EXRULE, EXDATE or
RECURRENCE-ID. -/
theorem recurrence_elimination (T : EntityTables) (env : Env) (events : List VEvent)
    (e : VEvent) (he : e ∈ (normalize T env events).events)
    (p : IANAProperty) (hp : p ∈ e.Properties) :
    p.IANAToken ∉
      [str "RRULE", str "RDATE", str "EXRULE", str "EXDATE", str "RECURRENCE-ID"] := by
  intro hmem
  obtain ⟨k, hk⟩ := List.mem_iff_getElem?.mp he
  rw [normalize_getElem?] at hk
  cases hin : events[k]? with
  | none => simp [hin] at hk
  | some e0 =>
    simp only [hin, Option.map_some', Option.some.injEq] at hk
    have hnamed := named_normalizeEvent T (env.now k) (env.rand k) k e0 0 p.IANAToken
    rw [hk] at hnamed
    have hU : ¬ p.IANAToken = str "UID" := by
      intro h
      rw [h] at hmem
      revert hmem
      decide
    rw [if_neg hU, if_pos (by rw [recurrenceProps_eq]; exact hmem)] at hnamed
    have hpin : p ∈ named p.IANAToken e.Properties := by
      simp [named, hp]
    rw [hnamed] at hpin
    simp at hpin

/-- Witness of C1 on the sample document: the summary that survives in the
first event is not a recurrence-control property. -/
theorem recurrence_elimination_witness :
    (⟨[prop "SUMMARY" "s", prop "DESCRIPTION" "plain &amp; simple",
        prop "UID" "5-0@calendar.lkj.io", prop "LOCATION" "Room 1"], []⟩ : VEvent)
        ∈ (normalize sampleTables (constEnv 5 none) sampleDoc).events
      ∧ prop "SUMMARY" "s" ∈
          [prop "SUMMARY" "s", prop "DESCRIPTION" "plain &amp; simple",
            prop "UID" "5-0@calendar.lkj.io", prop "LOCATION" "Room 1"]
      ∧ (prop "SUMMARY" "s").IANAToken ∉
          [str "RRULE", str "RDATE", str "EXRULE", str "EXDATE", str "RECURRENCE-ID"] :=
  ⟨by decide, by decide,
    recurrence_elimination sampleTables (constEnv 5 none) sampleDoc
      ⟨[prop "SUMMARY" "s", prop "DESCRIPTION" "plain &amp; simple",
        prop "UID" "5-0@calendar.lkj.io", prop "LOCATION" "Room 1"], []⟩ (by decide)
      (prop "SUMMARY" "s") (by decide)⟩

/-- C2. Counter correctness: the removed-count reported after the loop is the
total, over the events of the input document, of the numbers of RRULE, RDATE,
EXRULE, EXDATE and RECURRENCE-ID properties they carry; and one round of the
loop on an event with two RDATE, one RRULE and none of the other three adds
exactly 3 to the counter. -/
theorem counter_correct (T : EntityTables) (env : Env) (events : List VEvent) :
    (normalize T env events).recurrenceRemoved
        = (events.map (fun e => occurrences (str "RRULE") e + occurrences (str "RDATE") e
            + occurrences (str "EXRULE") e + occurrences (str "EXDATE") e
            + occurrences (str "RECURRENCE-ID") e)).sum
      ∧ ∀ (now : Int) (rnd : RandRead) (i : Nat) (e : VEvent) (n : Nat),
          occurrences (str "RDATE") e = 2 → occurrences (str "RRULE") e = 1 →
          occurrences (str "EXRULE") e = 0 → occurrences (str "EXDATE") e = 0 →
          occurrences (str "RECURRENCE-ID") e = 0 →
          (normalizeEvent T now rnd i e n).2 = n + 3 := by
  constructor
  · simp only [normalize, normalizeFrom_snd, Nat.zero_add]
  · intro now rnd i e n h1 h2 h3 h4 h5
    rw [normalizeEvent_snd, h1, h2, h3, h4, h5]

/-- Witness of C2: the sample event has two RDATE and one RRULE, and its round
takes the counter from 4 to 7. -/
theorem counter_correct_witness :
    occurrences (str "RDATE") sampleEvent = 2 ∧ occurrences (str "RRULE") sampleEvent = 1
      ∧ (normalizeEvent sampleTables 5 none 0 sampleEvent 4).2 = 4 + 3 :=
  ⟨by decide, by decide,
    (counter_correct sampleTables (constEnv 5 none) sampleDoc).2 5 none 0 sampleEvent 4
      (by decide) (by decide) (by decide) (by decide) (by decide)⟩

/-- C3. Identifier always present: the event at position `i` of the document,
whatever UID properties it had (none, one or several), has after normalization
exactly one property named UID, and its value is what `newUID(i)` returned in
that round. -/
theorem uid_always_present (T : EntityTables) (env : Env) (events : List VEvent) (i : Nat)
    (e : VEvent) (h : events[i]? = some e) :
    ∃ e1, (normalize T env events).events[i]? = some e1
      ∧ named (str "UID") e1.Properties
          = [⟨str "UID", [], newUID (env.now i) (env.rand i) i⟩] := by
  refine ⟨(normalizeEvent T (env.now i) (env.rand i) i e 0).1, ?_, ?_⟩
  · rw [normalize_getElem?, h]; rfl
  · rw [named_normalizeEvent, if_pos rfl]

/-- Witness of C3: the first sample event, which carried two identifiers. -/
theorem uid_always_present_witness :
    sampleDoc[0]? = some sampleEvent
      ∧ ∃ e1, (normalize sampleTables (constEnv 5 none) sampleDoc).events[0]? = some e1
          ∧ named (str "UID") e1.Properties
              = [⟨str "UID", [], newUID ((constEnv 5 none).now 0) ((constEnv 5 none).rand 0)
                  (0 : Nat)⟩] :=
  ⟨by decide, uid_always_present sampleTables (constEnv 5 none) sampleDoc 0 sampleEvent
    (by decide)⟩

/-! ## The identifier generator -/

theorem digit_toNat (d : Nat) (h : d < 10) : (UInt8.ofNat (48 + d)).toNat = 48 + d :=
  UInt8.toNat_ofNat_of_lt (by simp only [UInt8.size]; omega)

theorem readDigits_fmtDigits (fuel u : Nat) (buf : Str) (h : u ≤ fuel) :
    readDigits 0 (fmtDigits fuel u buf) = readDigits u buf := by
  induction fuel generalizing u buf with
  | zero =>
    have hu : u = 0 := by omega
    subst hu
    simp [fmtDigits, readDigits]
    rfl
  | succ fuel ih =>
    unfold fmtDigits
    by_cases h10 : 10 ≤ u
    · rw [if_pos h10, ih (u / 10) _ (by omega)]
      have hd : u - u / 10 * 10 < 10 := by omega
      simp only [readDigits, List.foldl_cons, digit_toNat _ hd]
      congr 1
      omega
    · rw [if_neg h10]
      have hd : u < 10 := by omega
      simp only [readDigits, List.foldl_cons, digit_toNat _ hd]
      congr 1
      omega

theorem fmtDigits_digit (fuel u : Nat) (buf : Str) (h : u ≤ fuel) :
    ∀ c ∈ fmtDigits fuel u buf, c ∈ buf ∨ (48 ≤ c.toNat ∧ c.toNat ≤ 57) := by
  induction fuel generalizing u buf with
  | zero =>
    have hu : u = 0 := by omega
    subst hu
    intro c hc
    simp only [fmtDigits, List.mem_cons] at hc
    rcases hc with hc | hc
    · right; subst hc; decide
    · left; exact hc
  | succ fuel ih =>
    intro c hc
    unfold fmtDigits at hc
    by_cases h10 : 10 ≤ u
    · rw [if_pos h10] at hc
      have hd : u - u / 10 * 10 < 10 := by omega
      rcases ih (u / 10) _ (by omega) c hc with h1 | h1
      · rcases List.mem_cons.mp h1 with h2 | h2
        · right; subst h2; rw [digit_toNat _ hd]; omega
        · left; exact h2
      · right; exact h1
    · rw [if_neg h10] at hc
      have hd : u < 10 := by omega
      rcases List.mem_cons.mp hc with h2 | h2
      · right; subst h2; rw [digit_toNat _ hd]; omega
      · left; exact h2

theorem fmtInteger_natCast (i : Nat) : fmtInteger (i : Int) = fmtDigits i i [] := by
  simp [fmtInteger]

theorem fmtInteger_natCast_no_dash (i : Nat) : (45 : UInt8) ∉ fmtInteger (i : Int) := by
  rw [fmtInteger_natCast]
  intro h
  rcases fmtDigits_digit i i [] (Nat.le_refl i) 45 h with h1 | h1
  · simp at h1
  · revert h1; decide

theorem fmtInteger_natCast_inj (i j : Nat) (h : fmtInteger (i : Int) = fmtInteger (j : Int)) :
    i = j := by
  rw [fmtInteger_natCast, fmtInteger_natCast] at h
  have hi := readDigits_fmtDigits i i [] (Nat.le_refl i)
  have hj := readDigits_fmtDigits j j [] (Nat.le_refl j)
  rw [h, hj] at hi
  simpa [readDigits] using hi.symm

theorem newUID_none (now index : Int) :
    newUID now none index
      = fmtInteger now ++ 45 :: (fmtInteger index ++ str "@calendar.lkj.io") := by
  simp only [newUID]
  have hf : str "%d-%d@calendar.lkj.io"
      = 37 :: 100 :: 45 :: 37 :: 100 :: str "@calendar.lkj.io" := by decide
  have hs : ∀ args, Sprintf (str "@calendar.lkj.io") args = str "@calendar.lkj.io" := by
    intro args; cases args <;> rfl
  rw [hf]
  simp only [Sprintf, hs]
  rfl

theorem newUID_some (now index : Int) (b : { b : Str // b.length = 8 }) :
    newUID now (some b) index
      = fmtInteger now ++ 45 :: (EncodeToString b.val
          ++ 45 :: (fmtInteger index ++ str "@calendar.lkj.io")) := by
  simp only [newUID]
  have hf : str "%d-%s-%d@calendar.lkj.io"
      = 37 :: 100 :: 45 :: 37 :: 115 :: 45 :: 37 :: 100 :: str "@calendar.lkj.io" := by decide
  have hs : ∀ args, Sprintf (str "@calendar.lkj.io") args = str "@calendar.lkj.io" := by
    intro args; cases args <;> rfl
  rw [hf]
  simp only [Sprintf, hs]
  rfl

/-- Every identifier ends with `-`, the digits of the index and the domain. -/
theorem newUID_shape (now : Int) (rnd : RandRead) (i : Nat) :
    ∃ pre, newUID now rnd i = pre ++ 45 :: (fmtInteger (i : Int) ++ str "@calendar.lkj.io") := by
  cases rnd with
  | none => exact ⟨fmtInteger now, newUID_none now i⟩
  | some b =>
    refine ⟨fmtInteger now ++ 45 :: EncodeToString b.val, ?_⟩
    rw [newUID_some]
    simp

theorem last_field_inj (a b x y : Str) (ha : (45 : UInt8) ∉ a) (hb : (45 : UInt8) ∉ b)
    (h : a ++ 45 :: x = b ++ 45 :: y) : a = b := by
  induction a generalizing b with
  | nil =>
    cases b with
    | nil => rfl
    | cons c b =>
      simp only [List.nil_append, List.cons_append, List.cons.injEq] at h
      exact absurd (List.mem_cons.mpr (Or.inl h.1)) hb
  | cons c a ih =>
    cases b with
    | nil =>
      simp only [List.nil_append, List.cons_append, List.cons.injEq] at h
      exact absurd (List.mem_cons.mpr (Or.inl h.1.symm)) ha
    | cons d b =>
      simp only [List.cons_append, List.cons.injEq] at h
      rw [h.1, ih b (fun hm => ha (List.mem_cons_of_mem _ hm))
        (fun hm => hb (List.mem_cons_of_mem _ hm)) h.2]

theorem newUID_index_inj (t1 t2 : Int) (r1 r2 : RandRead) (i j : Nat)
    (h : newUID t1 r1 i = newUID t2 r2 j) : i = j := by
  obtain ⟨p1, h1⟩ := newUID_shape t1 r1 i
  obtain ⟨p2, h2⟩ := newUID_shape t2 r2 j
  rw [h1, h2] at h
  have hrev := congrArg List.reverse h
  simp only [List.reverse_append, List.reverse_cons, List.append_assoc] at hrev
  have h3 := List.append_cancel_left hrev
  have h4 := last_field_inj (fmtInteger (i : Int)).reverse (fmtInteger (j : Int)).reverse
    p1.reverse p2.reverse
    (by simpa using fmtInteger_natCast_no_dash i)
    (by simpa using fmtInteger_natCast_no_dash j) (by simpa using h3)
  exact fmtInteger_natCast_inj i j (List.reverse_injective h4)

theorem fmtDigits_eq_decimalNat (fuel u : Nat) (buf : Str) (h : u ≤ fuel) :
    fmtDigits fuel u buf = decimalNat u ++ buf := by
  induction fuel generalizing u buf with
  | zero =>
    have hu : u = 0 := by omega
    subst hu
    simp [fmtDigits, decimalNat]
  | succ fuel ih =>
    unfold fmtDigits
    by_cases h10 : 10 ≤ u
    · rw [if_pos h10, ih (u / 10) _ (by omega)]
      have hu0 : u ≠ 0 := by omega
      have hq0 : u / 10 ≠ 0 := by omega
      have hmod : u - u / 10 * 10 = u % 10 := by omega
      simp only [decimalNat, if_neg hu0, if_neg hq0, hmod]
      rw [Nat.digits_def' (by omega) (by omega : 0 < u)]
      simp
    · rw [if_neg h10]
      by_cases hu0 : u = 0
      · subst hu0; simp [decimalNat]
      · have hlt : u < 10 := by omega
        simp [decimalNat, hu0, Nat.digits_of_lt 10 u hu0 hlt]

theorem fmtInteger_eq_decimal (v : Int) : fmtInteger v = decimal v := by
  simp only [fmtInteger, decimal, fmtDigits_eq_decimalNat _ _ _ (Nat.le_refl _),
    List.append_nil]

theorem getPropValue_normalizeEvent (T : EntityTables) (now : Int) (rnd : RandRead) (i : Nat)
    (e : VEvent) (n : Nat) (name : Str)
    (hname : name = str "DESCRIPTION" ∨ name = str "LOCATION") :
    getPropValue (normalizeEvent T now rnd i e n).1 name
      = if (getPropValue e name).2 then
          (if 60 ∈ (getPropValue e name).1 then stripHTMLish T (getPropValue e name).1
            else (getPropValue e name).1, true)
        else (str "", false) := by
  have hU : ¬ name = str "UID" := by
    rcases hname with h | h <;> (rw [h]; decide)
  have hR : name ∉ recurrenceProps := by
    rcases hname with h | h <;> (rw [h]; decide)
  rw [getPropValue_eq, getPropValue_eq, named_normalizeEvent, if_neg hU, if_neg hR,
    if_pos hname]
  cases hl : named name e.Properties with
  | nil => simp [sanitizedNamed]
  | cons p l =>
    by_cases hc : (60 : UInt8) ∈ p.Value <;> simp [sanitizedNamed, hc]

/-- C4. Identifier uniqueness: for two distinct indices, `newUID` returns two
different strings whatever the two timestamps and whatever the two outcomes of
the random read (bytes or failure); hence in every normalized document the UID
values of the events at two distinct positions differ. -/
theorem uid_unique :
    (∀ (i j : Nat), i ≠ j → ∀ (t1 t2 : Int) (r1 r2 : RandRead),
        newUID t1 r1 i ≠ newUID t2 r2 j)
      ∧ ∀ (T : EntityTables) (env : Env) (events : List VEvent) (i j : Nat) (a b : VEvent),
          i ≠ j → (normalize T env events).events[i]? = some a →
          (normalize T env events).events[j]? = some b →
          getPropValue a (str "UID") ≠ getPropValue b (str "UID") := by
  constructor
  · intro i j hij t1 t2 r1 r2 h
    exact hij (newUID_index_inj t1 t2 r1 r2 i j h)
  · intro T env events i j a b hij ha hb h
    rw [normalize_getElem?] at ha hb
    cases hi : events[i]? with
    | none => simp [hi] at ha
    | some ei =>
      cases hj : events[j]? with
      | none => simp [hj] at hb
      | some ej =>
        simp only [hi, hj, Option.map_some', Option.some.injEq] at ha hb
        rw [getPropValue_eq, getPropValue_eq, ← ha, ← hb, named_normalizeEvent,
          named_normalizeEvent, if_pos rfl, if_pos rfl] at h
        simp only [Prod.mk.injEq, and_true] at h
        exact hij (newUID_index_inj _ _ _ _ i j h)

/-- Witness of C4: indices 0 and 1 with the same timestamp, one random read
failing and the other giving eight zero bytes. -/
theorem uid_unique_witness :
    (0 : Nat) ≠ 1
      ∧ newUID 5 none (0 : Nat) ≠ newUID 5 (some ⟨[0, 0, 0, 0, 0, 0, 0, 0], rfl⟩) (1 : Nat) :=
  ⟨by decide, uid_unique.1 0 1 (by decide) 5 5 none (some ⟨[0, 0, 0, 0, 0, 0, 0, 0], rfl⟩)⟩

/-- C5. Sanitization trigger and dispatch: for the event at position `i`, and
for each of DESCRIPTION and LOCATION, the value read after normalization is
`stripHTMLish` of the value read before when that value contains `<`, the same
value when it does not, and the property is absent after when it was absent
before.  The outcome for one of the two names is determined by the value of
that name alone: two events, in any two documents and runs, that agree on it
get the same outcome whatever else they carry. -/
theorem sanitize_dispatch (T : EntityTables) (env : Env) (events : List VEvent) (i : Nat)
    (e : VEvent) (h : events[i]? = some e) :
    ∃ e1, (normalize T env events).events[i]? = some e1
      ∧ ∀ name, name = str "DESCRIPTION" ∨ name = str "LOCATION" →
          getPropValue e1 name
              = (if (getPropValue e name).2 then
                  (if 60 ∈ (getPropValue e name).1 then stripHTMLish T (getPropValue e name).1
                    else (getPropValue e name).1, true)
                else (str "", false))
            ∧ ∀ (env2 : Env) (events2 : List VEvent) (j : Nat) (e2 e3 : VEvent),
                events2[j]? = some e2 → getPropValue e2 name = getPropValue e name →
                (normalize T env2 events2).events[j]? = some e3 →
                getPropValue e3 name = getPropValue e1 name := by
  refine ⟨(normalizeEvent T (env.now i) (env.rand i) i e 0).1, ?_, ?_⟩
  · rw [normalize_getElem?, h]; rfl
  · intro name hname
    refine ⟨getPropValue_normalizeEvent T _ _ i e 0 name hname, ?_⟩
    intro env2 events2 j e2 e3 h2 hsame h3
    rw [normalize_getElem?, h2] at h3
    simp only [Option.map_some', Option.some.injEq] at h3
    rw [← h3, getPropValue_normalizeEvent T _ _ j e2 0 name hname,
      getPropValue_normalizeEvent T _ _ i e 0 name hname, hsame]

/-- Witness of C5: the location of the first sample event, which has markup. -/
theorem sanitize_dispatch_witness :
    sampleDoc[0]? = some sampleEvent
      ∧ ∃ e1, (normalize sampleTables (constEnv 5 none) sampleDoc).events[0]? = some e1
          ∧ getPropValue e1 (str "LOCATION") = (str "Room 1", true) := by
  refine ⟨by decide, ?_⟩
  obtain ⟨e1, h1, h2⟩ :=
    sanitize_dispatch sampleTables (constEnv 5 none) sampleDoc 0 sampleEvent (by decide)
  refine ⟨e1, h1, ?_⟩
  rw [(h2 (str "LOCATION") (Or.inr rfl)).1]
  decide

/-! ## The sanitizer -/

theorem matchBR_head (c : UInt8) (s : Str) (h : matchBR (c :: s) ≠ none) : c = 60 := by
  unfold matchBR at h
  split at h
  · rename_i lt b r rest heq
    simp only [List.cons.injEq] at heq
    by_cases hc : lt = 60 ∧ (b = 98 ∨ b = 66) ∧ (r = 114 ∨ r = 82)
    · rw [heq.1]; exact hc.1
    · rw [if_neg hc] at h; exact absurd rfl h
  · exact absurd rfl h

theorem matchTag_head (c : UInt8) (s : Str) (h : matchTag (c :: s) ≠ none) : c = 60 := by
  unfold matchTag at h
  split at h
  · rename_i lt d rest heq
    simp only [List.cons.injEq] at heq
    by_cases hc : lt = 60 ∧ d ≠ 62
    · rw [heq.1]; exact hc.1
    · rw [if_neg hc] at h; exact absurd rfl h
  · exact absurd rfl h

theorem matchTag_some_pos (s : Str) : matchTag s ≠ some 0 := by
  unfold matchTag
  split
  · split
    · split
      · simp
      · simp
    · simp
  · simp

/-- Where `reTag` finds no match at a `<`, a later `>` means a `>` right after. -/
theorem matchTag_none_lt (s : Str) (h : matchTag (60 :: s) = none) (hgt : (62 : UInt8) ∈ s) :
    s.head? = some 62 := by
  cases s with
  | nil => simp at hgt
  | cons c rest =>
    by_cases hc : c = 62
    · simp [hc]
    · have hrest : (62 : UInt8) ∈ rest := by
        rcases List.mem_cons.mp hgt with h1 | h1
        · exact absurd h1.symm hc
        · exact h1
      simp [matchTag, hc, hrest] at h

theorem replaceAllFrom_of_no_lt (matchAt : Str → Option Nat) (repl : Str)
    (hm : ∀ c s, matchAt (c :: s) ≠ none → c = 60) (s : Str) (hs : (60 : UInt8) ∉ s) :
    replaceAllFrom matchAt repl 0 s = s := by
  induction s with
  | nil => simp [replaceAllFrom]
  | cons c rest ih =>
    have hc : ¬ c = 60 := fun h => hs (h ▸ List.mem_cons_self _ _)
    have hnone : matchAt (c :: rest) = none := by
      by_contra hne
      exact hc (hm c rest hne)
    simp only [replaceAllFrom, hnone]
    rw [ih (fun hmem => hs (List.mem_cons_of_mem _ hmem))]

theorem replaceAllFrom_nil_subset (matchAt : Str → Option Nat) (k : Nat) (s : Str) :
    ∀ x ∈ replaceAllFrom matchAt [] k s, x ∈ s := by
  induction s generalizing k with
  | nil => simp [replaceAllFrom]
  | cons c rest ih =>
    intro x hx
    cases k with
    | succ k =>
      simp only [replaceAllFrom] at hx
      exact List.mem_cons_of_mem _ (ih k x hx)
    | zero =>
      simp only [replaceAllFrom] at hx
      split at hx
      · simp only [List.nil_append] at hx
        exact List.mem_cons_of_mem _ (ih _ x hx)
      · rcases List.mem_cons.mp hx with h1 | h1
        · rw [h1]; exact List.mem_cons_self _ _
        · exact List.mem_cons_of_mem _ (ih _ x h1)

theorem replaceAllFrom_matchTag_gt (s : Str) :
    replaceAllFrom matchTag [] 0 (62 :: s) = 62 :: replaceAllFrom matchTag [] 0 s := by
  have hnone : matchTag (62 :: s) = none := by
    by_contra hne
    exact absurd (matchTag_head 62 s hne) (by decide)
  simp only [replaceAllFrom, hnone]

theorem noOpenTag_replaceAllFrom (k : Nat) (s : Str) :
    noOpenTag (replaceAllFrom matchTag [] k s) := by
  induction s generalizing k with
  | nil => simp [replaceAllFrom, noOpenTag]
  | cons c rest ih =>
    cases k with
    | succ k => simp only [replaceAllFrom]; exact ih k
    | zero =>
      cases hmatch : matchTag (c :: rest) with
      | some n =>
        cases n with
        | zero => exact absurd hmatch (matchTag_some_pos _)
        | succ n =>
          simp only [replaceAllFrom, hmatch, List.nil_append]
          exact ih n
      | none =>
        simp only [replaceAllFrom, hmatch, noOpenTag]
        refine ⟨?_, ih 0⟩
        intro hc hgt
        subst hc
        have hgt2 : (62 : UInt8) ∈ rest := replaceAllFrom_nil_subset matchTag 0 rest 62 hgt
        have hhead := matchTag_none_lt rest hmatch hgt2
        cases rest with
        | nil => simp at hhead
        | cons d rest2 =>
          simp only [List.head?_cons, Option.some.injEq] at hhead
          subst hhead
          rw [replaceAllFrom_matchTag_gt]
          rfl

theorem noOpenTag_filter (p : UInt8 → Bool) (hp : p 62 = true) (s : Str) (h : noOpenTag s) :
    noOpenTag (s.filter p) := by
  induction s with
  | nil => simp [noOpenTag]
  | cons c rest ih =>
    simp only [noOpenTag] at h
    by_cases hc : p c = true
    · simp only [List.filter_cons, hc, if_true, noOpenTag]
      refine ⟨?_, ih h.2⟩
      intro h60 hgt
      have hhead := h.1 h60 (List.mem_filter.mp hgt).1
      cases rest with
      | nil => simp at hhead
      | cons d rest2 =>
        simp only [List.head?_cons, Option.some.injEq] at hhead
        subst hhead
        simp [List.filter_cons, hp]
    · simp only [List.filter_cons, hc]
      exact ih h.2

theorem noOpenTag_split (s : Str) (h : noOpenTag s) (pre post : Str)
    (hs : s = pre ++ 60 :: post) (hgt : (62 : UInt8) ∈ post) : post.head? = some 62 := by
  induction pre generalizing s with
  | nil =>
    subst hs
    have h2 : ((60 : UInt8) = 60 → 62 ∈ post → post.head? = some 62) ∧ noOpenTag post := h
    exact h2.1 rfl hgt
  | cons c pre ih =>
    subst hs
    have h2 : (c = 60 → 62 ∈ pre ++ 60 :: post → (pre ++ 60 :: post).head? = some 62)
        ∧ noOpenTag (pre ++ 60 :: post) := h
    exact ih _ h2.2 rfl

theorem ReplaceAll_cr (s : Str) : ReplaceAll s (str "\r") (str "") = s.filter (fun c => c ≠ 13) := by
  have h1 : str "\r" = [13] := by decide
  have h2 : str "" = [] := by decide
  rw [h1, h2]
  unfold ReplaceAll
  induction s with
  | nil => simp [stringsReplaceFrom]
  | cons c rest ih =>
    by_cases hc : c = 13
    · subst hc
      simp only [stringsReplaceFrom, hasStart, decide_True, Bool.and_self, if_true,
        List.nil_append, List.length_singleton, Nat.sub_self, ih]
      simp
    · have hc2 : ¬ (13 : UInt8) = c := fun h => hc h.symm
      simp only [stringsReplaceFrom, hasStart, hc2, decide_False, Bool.false_and, ih]
      simp [hc]

theorem stripHTMLish_eq (T : EntityTables) (s : Str) :
    stripHTMLish T s
      = (replaceAllFrom matchTag [] 0
          (replaceAllFrom matchBR [10] 0 (UnescapeString T s))).filter (fun c => c ≠ 13) := by
  have h1 : str "\n" = [10] := by decide
  have h2 : str "" = [] := by decide
  simp only [stripHTMLish, ReplaceAllString]
  rw [ReplaceAll_cr, h1, h2]

/-- On a string with neither `<` nor `&` only the carriage returns go. -/
theorem stripHTMLish_plain (T : EntityTables) (s : Str) (hlt : (60 : UInt8) ∉ s)
    (hamp : (38 : UInt8) ∉ s) : stripHTMLish T s = s.filter (fun c => c ≠ 13) := by
  rw [stripHTMLish_eq, UnescapeString, if_neg hamp,
    replaceAllFrom_of_no_lt matchBR [10] matchBR_head s hlt,
    replaceAllFrom_of_no_lt matchTag [] matchTag_head s hlt]

theorem unescapeFrom_skip (T : EntityTables) (k : Nat) (s : Str) :
    unescapeFrom T k s = unescapeFrom T 0 (s.drop k) := by
  induction s generalizing k with
  | nil => cases k <;> simp [unescapeFrom]
  | cons c rest ih =>
    cases k with
    | zero => simp
    | succ k => simp only [unescapeFrom, List.drop_succ_cons]; exact ih k

theorem unescapeFrom_cons_ne (T : EntityTables) (c : UInt8) (rest : Str) (hc : ¬ c = 38) :
    unescapeFrom T 0 (c :: rest) = c :: unescapeFrom T 0 rest := by
  simp only [unescapeFrom, hc, if_false]

theorem unescapeFrom_amp (T : EntityTables) (rest : Str) :
    unescapeFrom T 0 (38 :: rest)
      = (unescapeEntity T (38 :: rest)).1
          ++ unescapeFrom T 0 (rest.drop ((unescapeEntity T (38 :: rest)).2 - 1)) := by
  rw [← unescapeFrom_skip]
  simp only [unescapeFrom, if_true]

theorem unescapeFrom_copy (T : EntityTables) (pre s : Str) (h : (38 : UInt8) ∉ pre) :
    unescapeFrom T 0 (pre ++ s) = pre ++ unescapeFrom T 0 s := by
  induction pre with
  | nil => simp
  | cons c pre ih =>
    have hc : ¬ c = 38 := fun hc => h (hc ▸ List.mem_cons_self _ _)
    rw [List.cons_append, unescapeFrom_cons_ne T c _ hc,
      ih (fun hm => h (List.mem_cons_of_mem _ hm)), List.cons_append]

theorem unescapeFrom_no_amp (T : EntityTables) (s : Str) (h : (38 : UInt8) ∉ s) :
    unescapeFrom T 0 s = s := by
  have h2 := unescapeFrom_copy T s [] h
  simpa [unescapeFrom] using h2

/-- The reference `&amp;` is read whole and gives `&`, whatever follows it. -/
theorem unescapeEntity_amp (T : EntityTables) (h : T.entity (str "amp;") = 38) (rest : Str) :
    unescapeEntity T (38 :: 97 :: 109 :: 112 :: 59 :: rest) = ([38], 5) := by
  have hname : str "amp;" = [97, 109, 112, 59] := by decide
  rw [hname] at h
  have hscan : scanName (97 :: 109 :: 112 :: 59 :: rest) 1 = 5 := by
    simp +decide [scanName]
  have henc : EncodeRune 38 = [38] := by decide
  unfold unescapeEntity
  simp +decide [hscan, h, henc]

/-- The numeric reference `&#13;` is read whole and gives a carriage return,
whatever the tables and whatever follows it. -/
theorem unescapeEntity_cr (T : EntityTables) (rest : Str) :
    unescapeEntity T (38 :: 35 :: 49 :: 51 :: 59 :: rest) = ([13], 5) := by
  have hscan : scanNumber false (49 :: 51 :: 59 :: rest) 0 2 = (13, 5) := by
    simp +decide [scanNumber, wrap32]
  have henc : EncodeRune 13 = [13] := by decide
  unfold unescapeEntity
  simp +decide [hscan, henc]

/-- C6. The reference example: with `&amp;` standing for `&`, as in the
standard table, `stripHTMLish` turns `Hi<br>there &amp; <b>bold</b>` into `Hi`,
a newline, `there & bold`. -/
theorem sanitizer_example (T : EntityTables) (h : T.entity (str "amp;") = 38) :
    stripHTMLish T (str "Hi<br>there &amp; <b>bold</b>") = str "Hi\nthere & bold" := by
  have hin : str "Hi<br>there &amp; <b>bold</b>"
      = str "Hi<br>there " ++ 38 :: 97 :: 109 :: 112 :: 59 :: str " <b>bold</b>" := by decide
  have hun : UnescapeString T (str "Hi<br>there &amp; <b>bold</b>")
      = str "Hi<br>there & <b>bold</b>" := by
    rw [UnescapeString, if_pos (by decide), hin, unescapeFrom_copy T _ _ (by decide),
      unescapeFrom_amp, unescapeEntity_amp T h]
    rw [unescapeFrom_no_amp T _ (by decide)]
    decide
  rw [stripHTMLish, hun]
  decide

/-- Witness of C6 with the excerpt of the standard table. -/
theorem sanitizer_example_witness :
    sampleTables.entity (str "amp;") = 38
      ∧ stripHTMLish sampleTables (str "Hi<br>there &amp; <b>bold</b>")
          = str "Hi\nthere & bold" :=
  ⟨by decide, sanitizer_example sampleTables (by decide)⟩

/-- C7, as stated, fails: `&amp;amp;` contains no `<`, its sanitized form is
`&amp;`, and sanitizing that again gives `&`. -/
theorem idempotence_counterexample :
    (60 : UInt8) ∉ str "&amp;amp;"
      ∧ stripHTMLish sampleTables (str "&amp;amp;") = str "&amp;"
      ∧ stripHTMLish sampleTables (stripHTMLish sampleTables (str "&amp;amp;")) = str "&"
      ∧ stripHTMLish sampleTables (stripHTMLish sampleTables (str "&amp;amp;"))
          ≠ stripHTMLish sampleTables (str "&amp;amp;") := by
  decide

/-- C7, amended. Idempotence of sanitization on strings with neither `<` nor
`&`: for every such `x`, sanitizing the sanitized string changes nothing. -/
theorem idempotent_without_lt_amp (T : EntityTables) (x : Str) (hlt : (60 : UInt8) ∉ x)
    (hamp : (38 : UInt8) ∉ x) :
    stripHTMLish T (stripHTMLish T x) = stripHTMLish T x := by
  rw [stripHTMLish_plain T x hlt hamp]
  rw [stripHTMLish_plain T _ (fun h => hlt (List.mem_filter.mp h).1)
    (fun h => hamp (List.mem_filter.mp h).1)]
  simp [List.filter_filter]

/-- Witness of the amended C7: a text with a carriage return. -/
theorem idempotent_without_lt_amp_witness :
    (60 : UInt8) ∉ str "a > b\r\n" ∧ (38 : UInt8) ∉ str "a > b\r\n"
      ∧ stripHTMLish sampleTables (stripHTMLish sampleTables (str "a > b\r\n"))
          = stripHTMLish sampleTables (str "a > b\r\n") :=
  ⟨by decide, by decide,
    idempotent_without_lt_amp sampleTables (str "a > b\r\n") (by decide) (by decide)⟩

/-- C8, as stated, fails: the sanitized form of `<>` is `<>`, a `<` followed
by a `>`. -/
theorem no_markup_counterexample :
    stripHTMLish sampleTables (str "<>") = str "<>"
      ∧ stripHTMLish sampleTables (str "<>") = [] ++ 60 :: [62] ∧ (62 : UInt8) ∈ [62] := by
  decide

/-- C8, amended. In the output of `stripHTMLish`, a `<` that is followed at
some later position by a `>` is followed by a `>` directly: the pair `<>`,
which the tag pattern does not match, is the only span delimited by `<` and
`>` that is left. -/
theorem no_markup_but_empty_pair (T : EntityTables) (s pre post : Str)
    (hout : stripHTMLish T s = pre ++ 60 :: post) (hgt : (62 : UInt8) ∈ post) :
    post.head? = some 62 := by
  rw [stripHTMLish_eq] at hout
  exact noOpenTag_split _
    (noOpenTag_filter _ (by decide) _ (noOpenTag_replaceAllFrom 0 _)) pre post hout hgt

/-- Witness of the amended C8: `a<>b<c>d>` becomes `a<>bd>`. -/
theorem no_markup_but_empty_pair_witness :
    stripHTMLish sampleTables (str "a<>b<c>d>") = str "a" ++ 60 :: str ">bd>"
      ∧ (62 : UInt8) ∈ str ">bd>" ∧ (str ">bd>").head? = some 62 :=
  ⟨by decide, by decide,
    no_markup_but_empty_pair sampleTables (str "a<>b<c>d>") (str "a") (str ">bd>")
      (by decide) (by decide)⟩

/-- C9. No carriage return in the output: for every input, `stripHTMLish`
returns a string without carriage return; this covers a carriage return that
only decoding produces, as in `a&#13;b`, which decodes to `a`, carriage
return, `b` and is sanitized to `ab`. -/
theorem no_carriage_return (T : EntityTables) :
    (∀ s : Str, (13 : UInt8) ∉ stripHTMLish T s)
      ∧ (13 : UInt8) ∉ str "a&#13;b"
      ∧ UnescapeString T (str "a&#13;b") = [97, 13, 98]
      ∧ stripHTMLish T (str "a&#13;b") = str "ab" := by
  have hun : UnescapeString T (str "a&#13;b") = [97, 13, 98] := by
    have hin : str "a&#13;b" = [97] ++ 38 :: 35 :: 49 :: 51 :: 59 :: [98] := by decide
    rw [UnescapeString, if_pos (by decide), hin, unescapeFrom_copy T _ _ (by decide),
      unescapeFrom_amp, unescapeEntity_cr T]
    rw [unescapeFrom_no_amp T _ (by decide)]
    decide
  refine ⟨?_, by decide, hun, ?_⟩
  · intro s h
    rw [stripHTMLish_eq] at h
    have h2 := (List.mem_filter.mp h).2
    revert h2
    decide
  · rw [stripHTMLish, hun]
    decide

/-- C10. Fallback path: when the random read fails, `newUID` returns the
decimal numeral of the timestamp, `-`, the decimal numeral of the index and
`@calendar.lkj.io`, with no hexadecimal part; and a normalization pass in
which every random read fails returns a document with every event of the
input, each holding as UID the fallback identifier of its position. -/
theorem fallback_path :
    (∀ (t i : Int),
        newUID t none i = decimal t ++ str "-" ++ decimal i ++ str "@calendar.lkj.io")
      ∧ ∀ (T : EntityTables) (env : Env) (events : List VEvent),
          (∀ k, env.rand k = none) →
          (normalize T env events).events.length = events.length
            ∧ (normalize T env events).eventCount = events.length
            ∧ ∀ (i : Nat) (e : VEvent), events[i]? = some e →
                ∃ e1, (normalize T env events).events[i]? = some e1
                  ∧ getPropValue e1 (str "UID")
                      = (decimal (env.now i) ++ str "-" ++ decimal (i : Int)
                          ++ str "@calendar.lkj.io", true) := by
  have hdash : str "-" = [45] := by decide
  have hform : ∀ (t i : Int),
      newUID t none i = decimal t ++ str "-" ++ decimal i ++ str "@calendar.lkj.io" := by
    intro t i
    rw [newUID_none, fmtInteger_eq_decimal, fmtInteger_eq_decimal, hdash]
    simp
  refine ⟨hform, ?_⟩
  intro T env events hfail
  refine ⟨?_, rfl, ?_⟩
  · simp only [normalize, normalizeFrom_length]
  · intro i e hi
    refine ⟨(normalizeEvent T (env.now i) (env.rand i) i e 0).1, ?_, ?_⟩
    · rw [normalize_getElem?, hi]; rfl
    · rw [getPropValue_eq, named_normalizeEvent, if_pos rfl, hfail i, hform]

/-- Witness of C10: the sample document under a random source that always
fails. -/
theorem fallback_path_witness :
    (∀ k, (constEnv 5 none).rand k = none)
      ∧ (normalize sampleTables (constEnv 5 none) sampleDoc).events.length = sampleDoc.length :=
  ⟨fun _ => rfl, ((fallback_path.2 sampleTables (constEnv 5 none) sampleDoc) (fun _ => rfl)).1⟩

/-! ## Well-formedness of the identifier -/

theorem hextable_digit :
    ∀ k, k < 16 → isLowerHex (hextable.getD k 0) = true ∧ hexValue (hextable.getD k 0) = k := by
  decide

theorem ofNat_toNat_byte (v : UInt8) : UInt8.ofNat v.toNat = v :=
  UInt8.toNat.inj (UInt8.toNat_ofNat_of_lt (UInt8.toNat_lt_size v))

theorem EncodeToString_length (b : Str) : (EncodeToString b).length = 2 * b.length := by
  induction b with
  | nil => rfl
  | cons v rest ih => simp only [EncodeToString, List.length_cons, ih]; omega

theorem EncodeToString_hex (b : Str) : (EncodeToString b).all isLowerHex = true := by
  induction b with
  | nil => rfl
  | cons v rest ih =>
    have h1 := (hextable_digit (v.toNat / 16)
      (by have := UInt8.toNat_lt_size v; simp only [UInt8.size] at this; omega)).1
    have h2 := (hextable_digit (v.toNat % 16) (by omega)).1
    simp only [EncodeToString, List.all_cons, h1, h2, ih, Bool.and_self]

theorem decodeHex_EncodeToString (b : Str) : decodeHex (EncodeToString b) = b := by
  induction b with
  | nil => rfl
  | cons v rest ih =>
    have h1 := (hextable_digit (v.toNat / 16)
      (by have := UInt8.toNat_lt_size v; simp only [UInt8.size] at this; omega)).2
    have h2 := (hextable_digit (v.toNat % 16) (by omega)).2
    have hv : 16 * (v.toNat / 16) + v.toNat % 16 = v.toNat := by omega
    simp only [EncodeToString, decodeHex, h1, h2, ih, hv, ofNat_toNat_byte]

theorem isTokenByte_of_hex (c : UInt8) (h : isLowerHex c = true) : isTokenByte c = true := by
  simp only [isLowerHex, Bool.or_eq_true, Bool.and_eq_true, decide_eq_true_eq] at h
  simp only [isTokenByte, Bool.and_eq_true, decide_eq_true_eq, ne_eq]
  omega

theorem fmtInteger_bytes (v : Int) :
    ∀ c ∈ fmtInteger v, c = 45 ∨ (48 ≤ c.toNat ∧ c.toNat ≤ 57) := by
  intro c hc
  have hd := fmtDigits_digit v.natAbs v.natAbs [] (Nat.le_refl _) c
  simp only [fmtInteger] at hc
  split at hc
  · rcases List.mem_cons.mp hc with h | h
    · exact Or.inl h
    · rcases hd h with h1 | h1
      · simp at h1
      · exact Or.inr h1
  · rcases hd hc with h1 | h1
    · simp at h1
    · exact Or.inr h1

theorem fmtInteger_token (v : Int) :
    ∀ c ∈ fmtInteger v, isTokenByte c = true ∧ c ≠ 64 := by
  intro c hc
  rcases fmtInteger_bytes v c hc with h | h
  · subst h; decide
  · constructor
    · simp only [isTokenByte, Bool.and_eq_true, decide_eq_true_eq, ne_eq]; omega
    · intro h64; subst h64; revert h; decide

theorem EncodeToString_token (b : Str) :
    ∀ c ∈ EncodeToString b, isTokenByte c = true ∧ c ≠ 64 := by
  intro c hc
  have hhex := List.all_eq_true.mp (EncodeToString_hex b) c hc
  refine ⟨isTokenByte_of_hex c hhex, ?_⟩
  intro h64; subst h64; revert hhex; decide

/-- The bytes of an identifier are identifier bytes, and `@` occurs once. -/
theorem newUID_token (t : Int) (r : RandRead) (i : Int) :
    (newUID t r i).count 64 = 1 ∧ (newUID t r i).all isTokenByte = true := by
  have hdom : (str "@calendar.lkj.io").count 64 = 1
      ∧ (str "@calendar.lkj.io").all isTokenByte = true := by decide
  have hcount : ∀ l : Str, (∀ c ∈ l, isTokenByte c = true ∧ c ≠ 64) → l.count 64 = 0 :=
    fun l hl => List.count_eq_zero.mpr (fun hm => (hl 64 hm).2 rfl)
  have hall : ∀ l : Str, (∀ c ∈ l, isTokenByte c = true ∧ c ≠ 64) → l.all isTokenByte = true :=
    fun l hl => List.all_eq_true.mpr (fun c hc => (hl c hc).1)
  have hdash : isTokenByte 45 = true := by decide
  cases r with
  | none =>
    rw [newUID_none]
    constructor
    · simp only [List.count_append, List.count_cons, hcount _ (fmtInteger_token t),
        hcount _ (fmtInteger_token i), hdom.1]
      decide
    · simp only [List.all_append, List.all_cons, hall _ (fmtInteger_token t),
        hall _ (fmtInteger_token i), hdom.2, hdash, Bool.and_self]
  | some b =>
    rw [newUID_some]
    constructor
    · simp only [List.count_append, List.count_cons, hcount _ (fmtInteger_token t),
        hcount _ (fmtInteger_token i), hcount _ (EncodeToString_token b.val), hdom.1]
      decide
    · simp only [List.all_append, List.all_cons, hall _ (fmtInteger_token t),
        hall _ (fmtInteger_token i), hall _ (EncodeToString_token b.val), hdom.2, hdash,
        Bool.and_self]

/-- C11. Identifier well-formedness: for every timestamp `t`, every index
`i ≥ 0` and every 8 bytes `b` read from the random source, `newUID` returns the
decimal numeral of `t`, `-`, `h`, `-`, the decimal numeral of `i` and
`@calendar.lkj.io`, where `h` has 16 characters, all lowercase hexadecimal
digits, and reads back as `b`; and on both paths the result holds `@` exactly
once and consists of printable ASCII bytes other than space, `;`, `:`, `,` and
the double quote. -/
theorem uid_well_formed (t : Int) (i : Nat) :
    (∀ b : { b : Str // b.length = 8 },
        newUID t (some b) i
            = decimal t ++ str "-" ++ EncodeToString b.val ++ str "-" ++ decimal (i : Int)
                ++ str "@calendar.lkj.io"
          ∧ (EncodeToString b.val).length = 16
          ∧ (EncodeToString b.val).all isLowerHex = true
          ∧ decodeHex (EncodeToString b.val) = b.val)
      ∧ ∀ r : RandRead,
          (newUID t r i).count 64 = 1 ∧ (newUID t r i).all isTokenByte = true := by
  have hdash : str "-" = [45] := by decide
  refine ⟨?_, fun r => newUID_token t r i⟩
  intro b
  refine ⟨?_, ?_, EncodeToString_hex b.val, decodeHex_EncodeToString b.val⟩
  · rw [newUID_some, fmtInteger_eq_decimal, fmtInteger_eq_decimal, hdash]
    simp
  · rw [EncodeToString_length, b.property]

/-! ## The frame of the loop -/

theorem otherThan_RemoveProperty (names : List Str) (q : Str) (hq : q ∈ names) (e : VEvent) :
    otherThan names (RemoveProperty e q).1.Properties = otherThan names e.Properties := by
  simp only [otherThan, RemoveProperty, List.filter_filter]
  apply List.filter_congr
  intro p _
  by_cases hp : p.IANAToken = q
  · have hin : p.IANAToken ∈ names := hp ▸ hq
    simp [hin]
  · simp [hp]

theorem otherThan_ReplaceProperty (names : List Str) (q v : Str) (hq : q ∈ names) (e : VEvent) :
    otherThan names (ReplaceProperty e q v).Properties = otherThan names e.Properties := by
  have h := otherThan_RemoveProperty names q hq e
  simp only [otherThan] at h ⊢
  simp only [ReplaceProperty, AddProperty, List.filter_append, h]
  simp [hq]

theorem otherThan_removeProps (names props : List Str) (hsub : ∀ q ∈ props, q ∈ names)
    (e : VEvent) (n : Nat) :
    otherThan names (removeProps props e n).1.Properties = otherThan names e.Properties := by
  induction props generalizing e n with
  | nil => simp [removeProps]
  | cons q props ih =>
    simp only [removeProps]
    rw [ih (fun r hr => hsub r (List.mem_cons_of_mem _ hr)),
      otherThan_RemoveProperty names q (hsub q (List.mem_cons_self _ _))]

theorem otherThan_sanitizeProp (T : EntityTables) (names : List Str) (q : Str) (hq : q ∈ names)
    (e : VEvent) :
    otherThan names (sanitizeProp T e q).Properties = otherThan names e.Properties := by
  unfold sanitizeProp
  split
  · exact otherThan_ReplaceProperty names q _ hq e
  · rfl

theorem otherThan_normalizeEvent (T : EntityTables) (now : Int) (rnd : RandRead) (i : Nat)
    (e : VEvent) (n : Nat) :
    otherThan touchedNames (normalizeEvent T now rnd i e n).1.Properties
      = otherThan touchedNames e.Properties := by
  simp only [normalizeEvent]
  rw [otherThan_sanitizeProp T touchedNames _ (by decide),
    otherThan_sanitizeProp T touchedNames _ (by decide),
    otherThan_removeProps touchedNames recurrenceProps (by decide),
    otherThan_ReplaceProperty touchedNames _ _ (by decide)]

/-- C12. Frame of normalization: the loop returns as many events as the
document has and reports that number; the event at each position of the
outcome comes from the event at the same position of the input, and its
properties of names other than UID, RRULE, RDATE, EXRULE, EXDATE,
RECURRENCE-ID, DESCRIPTION and LOCATION are those of the input event, with the
same parameters and values and in the same order; its nested components are
unchanged too. -/
theorem normalization_frame (T : EntityTables) (env : Env) (events : List VEvent) :
    (normalize T env events).events.length = events.length
      ∧ (normalize T env events).eventCount = events.length
      ∧ ∀ (i : Nat) (e : VEvent), events[i]? = some e →
          ∃ e1, (normalize T env events).events[i]? = some e1
            ∧ otherThan touchedNames e1.Properties = otherThan touchedNames e.Properties
            ∧ e1.Components = e.Components := by
  refine ⟨?_, rfl, ?_⟩
  · simp only [normalize, normalizeFrom_length]
  · intro i e hi
    refine ⟨(normalizeEvent T (env.now i) (env.rand i) i e 0).1, ?_, ?_, ?_⟩
    · rw [normalize_getElem?, hi]; rfl
    · exact otherThan_normalizeEvent T _ _ i e 0
    · exact normalizeEvent_Components T _ _ i e 0

/-- Witness of C12: the first sample event keeps its summary, and only that. -/
theorem normalization_frame_witness :
    sampleDoc[0]? = some sampleEvent
      ∧ ∃ e1, (normalize sampleTables (constEnv 5 none) sampleDoc).events[0]? = some e1
          ∧ otherThan touchedNames e1.Properties = [prop "SUMMARY" "s"]
          ∧ e1.Components = [] := by
  refine ⟨by decide, ?_⟩
  obtain ⟨e1, h1, h2, h3⟩ :=
    (normalization_frame sampleTables (constEnv 5 none) sampleDoc).2.2 0 sampleEvent (by decide)
  refine ⟨e1, h1, ?_, ?_⟩
  · rw [h2]; decide
  · rw [h3]; decide

/-! ## Plain text, line-break tags, tags -/

theorem filter_cr_of_no_cr (s : Str) (h : (13 : UInt8) ∉ s) :
    s.filter (fun c => c ≠ 13) = s := by
  apply List.filter_eq_self.mpr
  intro c hc
  have hne : c ≠ 13 := fun h13 => h (h13 ▸ hc)
  simp [hne]

theorem stripHTMLish_identity (T : EntityTables) (s : Str) (hlt : (60 : UInt8) ∉ s)
    (hamp : (38 : UInt8) ∉ s) (hcr : (13 : UInt8) ∉ s) : stripHTMLish T s = s := by
  rw [stripHTMLish_plain T s hlt hamp, filter_cr_of_no_cr s hcr]

/-- C17. Identity on plain text: on a string with no `<`, no `&` and no
carriage return `stripHTMLish` returns the string itself, and so applying it
twice gives the same as applying it once. -/
theorem plain_text_identity (T : EntityTables) (s : Str) (hlt : (60 : UInt8) ∉ s)
    (hamp : (38 : UInt8) ∉ s) (hcr : (13 : UInt8) ∉ s) :
    stripHTMLish T s = s ∧ stripHTMLish T (stripHTMLish T s) = stripHTMLish T s := by
  have h := stripHTMLish_identity T s hlt hamp hcr
  exact ⟨h, by rw [h, h]⟩

/-- Witness of C17: a text with a `>`, a newline and a non-ASCII letter. -/
theorem plain_text_identity_witness :
    (60 : UInt8) ∉ str "à > b\n" ∧ (38 : UInt8) ∉ str "à > b\n" ∧ (13 : UInt8) ∉ str "à > b\n"
      ∧ stripHTMLish sampleTables (str "à > b\n") = str "à > b\n" :=
  ⟨by decide, by decide, by decide,
    (plain_text_identity sampleTables (str "à > b\n") (by decide) (by decide) (by decide)).1⟩

theorem replaceAllFrom_skip (matchAt : Str → Option Nat) (repl : Str) (k : Nat) (s : Str) :
    replaceAllFrom matchAt repl k s = replaceAllFrom matchAt repl 0 (s.drop k) := by
  induction s generalizing k with
  | nil => cases k <;> simp [replaceAllFrom]
  | cons c rest ih =>
    cases k with
    | zero => simp
    | succ k => simp only [replaceAllFrom, List.drop_succ_cons]; exact ih k

theorem replaceAllFrom_match (matchAt : Str → Option Nat) (repl : Str) (c : UInt8)
    (rest : Str) (n : Nat) (h : matchAt (c :: rest) = some (n + 1)) :
    replaceAllFrom matchAt repl 0 (c :: rest)
      = repl ++ replaceAllFrom matchAt repl 0 (rest.drop n) := by
  rw [← replaceAllFrom_skip]
  simp only [replaceAllFrom, h]

theorem replaceAllFrom_no_match (matchAt : Str → Option Nat) (repl : Str) (c : UInt8)
    (rest : Str) (h : matchAt (c :: rest) = none) :
    replaceAllFrom matchAt repl 0 (c :: rest) = c :: replaceAllFrom matchAt repl 0 rest := by
  simp only [replaceAllFrom, h]

theorem replaceAllFrom_copy (matchAt : Str → Option Nat) (repl : Str)
    (hm : ∀ c s, matchAt (c :: s) ≠ none → c = 60) (pre s : Str) (hpre : (60 : UInt8) ∉ pre) :
    replaceAllFrom matchAt repl 0 (pre ++ s) = pre ++ replaceAllFrom matchAt repl 0 s := by
  induction pre with
  | nil => simp
  | cons c pre ih =>
    have hc : ¬ c = 60 := fun h => hpre (h ▸ List.mem_cons_self _ _)
    have hnone : matchAt (c :: (pre ++ s)) = none := by
      by_contra hne
      exact hc (hm c _ hne)
    rw [List.cons_append, replaceAllFrom_no_match _ _ _ _ hnone,
      ih (fun hmem => hpre (List.mem_cons_of_mem _ hmem)), List.cons_append]

theorem isSpace_ne (c : UInt8) (h : isSpace c = true) :
    c ≠ 60 ∧ c ≠ 62 ∧ c ≠ 47 ∧ c ≠ 38 := by
  simp only [isSpace, Bool.or_eq_true, decide_eq_true_eq] at h
  rcases h with (((h | h) | h) | h) | h <;> subst h <;> decide

theorem takeWhile_isSpace_tail (ws : Str) (slash : Bool) (b : Str)
    (hws : ∀ c ∈ ws, isSpace c = true) :
    (ws ++ ((if slash then [47] else []) ++ 62 :: b)).takeWhile isSpace = ws
      ∧ (ws ++ ((if slash then [47] else []) ++ 62 :: b)).dropWhile isSpace
          = (if slash then [47] else []) ++ 62 :: b := by
  rw [List.takeWhile_append_of_pos hws, List.dropWhile_append_of_pos hws]
  have h62 : isSpace 62 = false := by decide
  have h47 : isSpace 47 = false := by decide
  cases slash <;> simp [List.takeWhile, List.dropWhile, h62, h47]

/-- The pattern `reBR` matches a line-break tag whole, whatever follows it. -/
theorem matchBR_lineBreakTag (x y : UInt8) (ws : Str) (slash : Bool) (b : Str)
    (hx : x = 98 ∨ x = 66) (hy : y = 114 ∨ y = 82) (hws : ∀ c ∈ ws, isSpace c = true) :
    matchBR (lineBreakTag x y ws slash ++ b) = some ((lineBreakTag x y ws slash).length) := by
  have hshape : lineBreakTag x y ws slash ++ b
      = 60 :: x :: y :: (ws ++ ((if slash then [47] else []) ++ 62 :: b)) := by
    simp [lineBreakTag]
  have htd := takeWhile_isSpace_tail ws slash b hws
  rw [hshape]
  simp only [matchBR, hx, hy, htd.1, htd.2, true_and, and_self, if_true]
  cases slash <;> simp +decide [lineBreakTag] <;> omega

theorem replaceAllFrom_match_whole (matchAt : Str → Option Nat) (repl : Str) (tag b : Str)
    (hne : tag ≠ []) (h : matchAt (tag ++ b) = some tag.length) :
    replaceAllFrom matchAt repl 0 (tag ++ b) = repl ++ replaceAllFrom matchAt repl 0 b := by
  cases tag with
  | nil => exact absurd rfl hne
  | cons c tag1 =>
    rw [List.cons_append] at h ⊢
    rw [replaceAllFrom_match matchAt repl c (tag1 ++ b) tag1.length (by simpa using h),
      List.drop_left]

theorem lineBreakTag_bytes (x y : UInt8) (ws : Str) (slash : Bool)
    (hx : x = 98 ∨ x = 66) (hy : y = 114 ∨ y = 82) (hws : ∀ c ∈ ws, isSpace c = true) :
    (38 : UInt8) ∉ lineBreakTag x y ws slash := by
  intro h
  simp only [lineBreakTag, List.mem_cons, List.mem_append] at h
  rcases h with h | h | h | h | h
  · revert h; decide
  · rcases hx with hx | hx <;> subst hx <;> revert h <;> decide
  · rcases hy with hy | hy <;> subst hy <;> revert h <;> decide
  · exact (isSpace_ne 38 (hws 38 h)).2.2.2 rfl
  · cases slash <;> simp at h

/-- C13. Line-break tags become newlines: for every line-break tag `t` (`<`,
`br` in any letter case, whitespace, an optional `/`, `>`) and all strings `a`
and `b` without `<`, `&` and carriage return, `stripHTMLish` turns `a`, `t`,
`b` into `a`, a newline, `b`. -/
theorem line_break_tag_to_newline (T : EntityTables) (t a b : Str) (ht : isLineBreakTag t)
    (ha : (60 : UInt8) ∉ a ∧ (38 : UInt8) ∉ a ∧ (13 : UInt8) ∉ a)
    (hb : (60 : UInt8) ∉ b ∧ (38 : UInt8) ∉ b ∧ (13 : UInt8) ∉ b) :
    stripHTMLish T (a ++ t ++ b) = a ++ str "\n" ++ b := by
  obtain ⟨x, y, ws, slash, hx, hy, hws, rfl⟩ := ht
  have hnl : str "\n" = [10] := by decide
  have hamp : (38 : UInt8) ∉ a ++ lineBreakTag x y ws slash ++ b := by
    simp only [List.mem_append, not_or]
    exact ⟨⟨ha.2.1, lineBreakTag_bytes x y ws slash hx hy hws⟩, hb.2.1⟩
  have hout60 : (60 : UInt8) ∉ a ++ ([10] ++ b) := by
    simp only [List.mem_append, not_or]
    exact ⟨ha.1, by decide, hb.1⟩
  have hout13 : (13 : UInt8) ∉ a ++ ([10] ++ b) := by
    simp only [List.mem_append, not_or]
    exact ⟨ha.2.2, by decide, hb.2.2⟩
  rw [stripHTMLish_eq, UnescapeString, if_neg hamp, List.append_assoc,
    replaceAllFrom_copy matchBR [10] matchBR_head a _ ha.1,
    replaceAllFrom_match_whole matchBR [10] _ b (by simp [lineBreakTag])
      (matchBR_lineBreakTag x y ws slash b hx hy hws),
    replaceAllFrom_of_no_lt matchBR [10] matchBR_head b hb.1,
    replaceAllFrom_of_no_lt matchTag [] matchTag_head _ hout60,
    filter_cr_of_no_cr _ hout13, hnl]
  simp

/-- Witness of C13: the tag `<Br`, space, tab, carriage return, `/>`. -/
theorem line_break_tag_to_newline_witness :
    isLineBreakTag (str "<Br \t\r/>")
      ∧ stripHTMLish sampleTables (str "x > y" ++ str "<Br \t\r/>" ++ str "z")
          = str "x > y" ++ str "\n" ++ str "z" :=
  have ht : isLineBreakTag (str "<Br \t\r/>") :=
    ⟨66, 114, str " \t\r", true, by decide, by decide, by decide, by decide⟩
  ⟨ht, line_break_tag_to_newline sampleTables (str "<Br \t\r/>") (str "x > y") (str "z") ht
    (by decide) (by decide)⟩

/-- What `reBR` matches at the start of a string is a line-break tag. -/
theorem matchBR_sound (s : Str) (n : Nat) (h : matchBR s = some n) :
    ∃ tag rest, s = tag ++ rest ∧ isLineBreakTag tag := by
  unfold matchBR at h
  split at h
  · rename_i lt x y rest0
    by_cases hc : lt = 60 ∧ (x = 98 ∨ x = 66) ∧ (y = 114 ∨ y = 82)
    · rw [if_pos hc] at h
      have hsplit := List.takeWhile_append_dropWhile isSpace rest0
      have hws : ∀ c ∈ rest0.takeWhile isSpace, isSpace c = true :=
        fun c hc => List.mem_takeWhile_imp hc
      obtain ⟨h60, hx, hy⟩ := hc
      subst h60
      by_cases hsl : (rest0.dropWhile isSpace).head? = some 47
      · simp only [hsl, if_true] at h
        split at h
        · rename_i h62
          cases hd : rest0.dropWhile isSpace with
          | nil => rw [hd] at hsl; simp at hsl
          | cons c1 r1 =>
            rw [hd] at hsl h62
            simp only [List.head?_cons, Option.some.injEq] at hsl
            subst hsl
            cases r1 with
            | nil => simp at h62
            | cons c2 r2 =>
              simp only [List.drop_succ_cons, List.drop_zero, List.head?_cons,
                Option.some.injEq] at h62
              subst h62
              refine ⟨lineBreakTag x y (rest0.takeWhile isSpace) true, r2, ?_,
                ⟨x, y, _, true, hx, hy, hws, rfl⟩⟩
              rw [hd] at hsplit
              simp [lineBreakTag, hsplit]
        · exact absurd h (by simp)
      · simp only [hsl, if_false, List.drop_zero] at h
        split at h
        · rename_i h62
          cases hd : rest0.dropWhile isSpace with
          | nil => rw [hd] at h62; simp at h62
          | cons c1 r1 =>
            rw [hd] at h62
            simp only [List.head?_cons, Option.some.injEq] at h62
            subst h62
            refine ⟨lineBreakTag x y (rest0.takeWhile isSpace) false, r1, ?_,
              ⟨x, y, _, false, hx, hy, hws, rfl⟩⟩
            rw [hd] at hsplit
            simp [lineBreakTag, hsplit]
        · exact absurd h (by simp)
    · rw [if_neg hc] at h
      exact absurd h (by simp)
  · exact absurd h (by simp)

theorem first_split_inj (sep : UInt8) (a b x y : Str) (ha : sep ∉ a) (hb : sep ∉ b)
    (h : a ++ sep :: x = b ++ sep :: y) : a = b ∧ x = y := by
  induction a generalizing b with
  | nil =>
    cases b with
    | nil => simpa using h
    | cons c b =>
      simp only [List.nil_append, List.cons_append, List.cons.injEq] at h
      exact absurd (List.mem_cons.mpr (Or.inl h.1)) hb
  | cons c a ih =>
    cases b with
    | nil =>
      simp only [List.nil_append, List.cons_append, List.cons.injEq] at h
      exact absurd (List.mem_cons.mpr (Or.inl h.1.symm)) ha
    | cons d b =>
      simp only [List.cons_append, List.cons.injEq] at h
      have h2 := ih b (fun hm => ha (List.mem_cons_of_mem _ hm))
        (fun hm => hb (List.mem_cons_of_mem _ hm)) h.2
      exact ⟨by rw [h.1, h2.1], h2.2⟩

theorem replaceAllFrom_of_no_match (matchAt : Str → Option Nat) (repl : Str) (s : Str)
    (h : ∀ pre suf, s = pre ++ suf → matchAt suf = none) :
    replaceAllFrom matchAt repl 0 s = s := by
  induction s with
  | nil => simp [replaceAllFrom]
  | cons c rest ih =>
    rw [replaceAllFrom_no_match matchAt repl c rest (h [] _ rfl),
      ih (fun pre suf hs => h (c :: pre) suf (by rw [hs, List.cons_append]))]

theorem lineBreakTag_split (x y : UInt8) (ws : Str) (slash : Bool)
    (hx : x = 98 ∨ x = 66) (hy : y = 114 ∨ y = 82) (hws : ∀ c ∈ ws, isSpace c = true) :
    ∃ tag0, lineBreakTag x y ws slash = tag0 ++ [62] ∧ (62 : UInt8) ∉ tag0
      ∧ tag0.head? = some 60 := by
  refine ⟨60 :: x :: y :: (ws ++ (if slash then [47] else [])), ?_, ?_, rfl⟩
  · simp [lineBreakTag]
  · intro h
    simp only [List.mem_cons, List.mem_append] at h
    rcases h with h | h | h | h | h
    · revert h; decide
    · rcases hx with hx | hx <;> subst hx <;> revert h <;> decide
    · rcases hy with hy | hy <;> subst hy <;> revert h <;> decide
    · exact (isSpace_ne 62 (hws 62 h)).2.1 rfl
    · cases slash <;> simp at h

/-- In a tag without inner `>` that has no line-break tag as a suffix, and in
the text after it, `reBR` finds no match. -/
theorem matchBR_none_in_tag (t r : Str) (hgt : (62 : UInt8) ∉ t) (hr : (60 : UInt8) ∉ r)
    (hbr : ∀ pre suf, 60 :: t ++ [62] = pre ++ suf → ¬ isLineBreakTag suf) :
    ∀ pre suf, 60 :: t ++ 62 :: r = pre ++ suf → matchBR suf = none := by
  intro pre suf hsplit
  by_contra hne
  obtain ⟨n, hn⟩ := Option.ne_none_iff_exists'.mp hne
  obtain ⟨tag, rest, hsuf, htag⟩ := matchBR_sound suf n hn
  have htag2 := htag
  obtain ⟨x, y, ws, slash, hx, hy, hws, htageq⟩ := htag2
  obtain ⟨tag0, htag0, hno, hhead⟩ := lineBreakTag_split x y ws slash hx hy hws
  rw [htageq.symm] at htag0
  have h60suf : (60 : UInt8) ∈ suf := by
    rw [hsuf, htag0]
    cases tag0 with
    | nil => simp at hhead
    | cons c l =>
      simp only [List.head?_cons, Option.some.injEq] at hhead
      subst hhead
      simp
  have hA : 60 :: t ++ 62 :: r = (60 :: t ++ [62]) ++ r := by simp
  rw [hA] at hsplit
  rcases List.append_eq_append_iff.mp hsplit with ⟨a1, _, hr2⟩ | ⟨c1, hc1, hr2⟩
  · exact hr (hr2 ▸ List.mem_append_right _ h60suf)
  · rcases List.eq_nil_or_concat c1 with hnil | ⟨c0, l, hconcat⟩
    · subst hnil
      simp only [List.nil_append] at hr2
      exact hr (hr2 ▸ h60suf)
    · rw [List.concat_eq_append] at hconcat
      subst hconcat
      have h3 : (60 :: t) ++ [62] = (pre ++ c0) ++ [l] := by
        rw [List.append_assoc]; exact hc1
      have h4 := List.append_inj' h3 rfl
      have hl : l = 62 := by simpa using h4.2.symm
      subst hl
      have hc0 : (62 : UInt8) ∉ c0 := by
        intro hm
        have hm2 : (62 : UInt8) ∈ 60 :: t := h4.1 ▸ List.mem_append_right _ hm
        rcases List.mem_cons.mp hm2 with h5 | h5
        · revert h5; decide
        · exact hgt h5
      have h6 : tag0 ++ 62 :: rest = c0 ++ 62 :: r := by
        have h7 : suf = c0 ++ [62] ++ r := hr2
        rw [hsuf, htag0] at h7
        simpa using h7
      have h8 := (first_split_inj 62 tag0 c0 rest r hno hc0 h6).1
      exact hbr pre (c0 ++ [62]) hc1 (by rw [← h8, ← htag0]; exact htag)

/-- The pattern `reTag` matches a tag without inner `>` whole. -/
theorem matchTag_whole (t r : Str) (hne : t ≠ []) (hgt : (62 : UInt8) ∉ t) :
    matchTag ((60 :: t ++ [62]) ++ r) = some (60 :: t ++ [62]).length := by
  cases t with
  | nil => exact absurd rfl hne
  | cons c t1 =>
    have hc : c ≠ 62 := fun h => hgt (h ▸ List.mem_cons_self _ _)
    have ht1 : ∀ d ∈ t1, decide (d ≠ 62) = true := by
      intro d hd
      have : d ≠ 62 := fun h => hgt (h ▸ List.mem_cons_of_mem _ hd)
      simpa using this
    have hshape : (60 :: (c :: t1) ++ [62]) ++ r = 60 :: c :: (t1 ++ 62 :: r) := by simp
    rw [hshape]
    simp only [matchTag, hc, ne_eq, not_false_eq_true, and_self, if_true, List.mem_append,
      List.mem_cons, true_or, or_true, List.takeWhile_append_of_pos ht1]
    simp [List.takeWhile]
    omega

/-- Where `reBR` matches at no tail of a string, no suffix of the string is a
line-break tag. -/
theorem no_lineBreakTag_of_tails (l : Str) (h : ∀ suf ∈ l.tails, matchBR suf = none) :
    ∀ pre suf, l = pre ++ suf → ¬ isLineBreakTag suf := by
  intro pre suf hl hbr
  have hnone := h suf ((List.mem_tails suf l).mpr ⟨pre, hl.symm⟩)
  obtain ⟨x, y, ws, slash, hx, hy, hws, rfl⟩ := hbr
  have hsome := matchBR_lineBreakTag x y ws slash [] hx hy hws
  rw [List.append_nil, hnone] at hsome
  exact absurd hsome (by simp)

theorem isLineBreakTag_matchBR (t : Str) (h : isLineBreakTag t) :
    matchBR t = some t.length := by
  obtain ⟨x, y, ws, slash, hx, hy, hws, rfl⟩ := h
  have hsome := matchBR_lineBreakTag x y ws slash [] hx hy hws
  rwa [List.append_nil] at hsome

/-- C14, as stated, fails: `a<br` is not empty, has no `>` and no `&`, and
`<a<br>` is not a line-break tag; yet `<a<br>z` is sanitized to `<a`, newline,
`z`, not to `z`: the line-break tag that starts at the inner `<` is replaced
first, which takes away the `>`. -/
theorem first_gt_counterexample :
    str "a<br" ≠ [] ∧ (62 : UInt8) ∉ str "a<br" ∧ (38 : UInt8) ∉ str "a<br"
      ∧ ¬ isLineBreakTag (str "<" ++ str "a<br" ++ str ">")
      ∧ (60 : UInt8) ∉ str "z" ∧ (38 : UInt8) ∉ str "z" ∧ (13 : UInt8) ∉ str "z"
      ∧ stripHTMLish sampleTables (str "<" ++ str "a<br" ++ str ">" ++ str "z") = str "<a\nz"
      ∧ stripHTMLish sampleTables (str "<" ++ str "a<br" ++ str ">" ++ str "z") ≠ str "z" := by
  refine ⟨by decide, by decide, by decide, ?_, by decide, by decide, by decide, by decide,
    by decide⟩
  intro h
  have hm := isLineBreakTag_matchBR _ h
  revert hm
  decide

/-- C14, amended. First `>` terminates a tag: for every non-empty string `t`
without `>` and `&` such that no suffix of `<`, `t`, `>` is a line-break tag
(neither the whole nor a part starting at a `<` inside `t`), and every string
`r` without `<`, `&` and carriage return, `stripHTMLish` turns `<`, `t`, `>`,
`r` into `r`; so a `>` inside an attribute value ends the tag early:
`<a title="x>y">z` becomes `y">z`. -/
theorem first_gt_ends_tag (T : EntityTables) :
    (∀ (t r : Str), t ≠ [] → (62 : UInt8) ∉ t → (38 : UInt8) ∉ t →
        (∀ pre suf, str "<" ++ t ++ str ">" = pre ++ suf → ¬ isLineBreakTag suf) →
        (60 : UInt8) ∉ r → (38 : UInt8) ∉ r → (13 : UInt8) ∉ r →
        stripHTMLish T (str "<" ++ t ++ str ">" ++ r) = r)
      ∧ stripHTMLish T (str "<a title=\"x>y\">z") = str "y\">z" := by
  constructor
  · intro t r hne hgt hamp hbr hr60 hr38 hr13
    have hlt : str "<" = [60] := by decide
    have hgts : str ">" = [62] := by decide
    rw [hlt, hgts] at hbr ⊢
    have hbr2 : ∀ pre suf, 60 :: t ++ [62] = pre ++ suf → ¬ isLineBreakTag suf := by
      intro pre suf h
      exact hbr pre suf (by simpa using h)
    have hw : [60] ++ t ++ [62] ++ r = 60 :: t ++ 62 :: r := by simp
    have hw2 : 60 :: t ++ 62 :: r = (60 :: t ++ [62]) ++ r := by simp
    have h38 : (38 : UInt8) ∉ 60 :: t ++ 62 :: r := by
      simp only [List.cons_append, List.mem_cons, List.mem_append, not_or]
      exact ⟨by decide, hamp, by decide, hr38⟩
    rw [hw, stripHTMLish_eq, UnescapeString, if_neg h38,
      replaceAllFrom_of_no_match matchBR [10] _ (matchBR_none_in_tag t r hgt hr60 hbr2), hw2,
      replaceAllFrom_match_whole matchTag [] _ r (by simp) (matchTag_whole t r hne hgt),
      replaceAllFrom_of_no_lt matchTag [] matchTag_head r hr60, List.nil_append,
      filter_cr_of_no_cr r hr13]
  · rw [stripHTMLish_eq, UnescapeString, if_neg (by decide)]
    decide

/-- Witness of the amended C14: the tag `<a title="x>` followed by `y">z`. -/
theorem first_gt_ends_tag_witness :
    str "a title=\"x" ≠ [] ∧ (62 : UInt8) ∉ str "a title=\"x"
      ∧ stripHTMLish sampleTables (str "<" ++ str "a title=\"x" ++ str ">" ++ str "y\">z")
          = str "y\">z" :=
  ⟨by decide, by decide,
    (first_gt_ends_tag sampleTables).1 (str "a title=\"x") (str "y\">z") (by decide)
      (by decide) (by decide) (no_lineBreakTag_of_tails _ (by decide)) (by decide) (by decide)
      (by decide)⟩

/-! ## Decoding comes first -/

/-- The reference `&lt;` is read whole and gives `<`, whatever follows it. -/
theorem unescapeFrom_lt (T : EntityTables) (h : T.entity (str "lt;") = 60) (rest : Str) :
    unescapeFrom T 0 (38 :: 108 :: 116 :: 59 :: rest) = 60 :: unescapeFrom T 0 rest := by
  have hname : str "lt;" = [108, 116, 59] := by decide
  rw [hname] at h
  have hscan : scanName (108 :: 116 :: 59 :: rest) 1 = 4 := by
    simp +decide [scanName]
  have henc : EncodeRune 60 = [60] := by decide
  have hent : unescapeEntity T (38 :: 108 :: 116 :: 59 :: rest) = ([60], 4) := by
    unfold unescapeEntity
    simp +decide [hscan, h, henc]
  rw [unescapeFrom_amp, hent]
  rfl

/-- The reference `&gt;` is read whole and gives `>`, whatever follows it. -/
theorem unescapeFrom_gt (T : EntityTables) (h : T.entity (str "gt;") = 62) (rest : Str) :
    unescapeFrom T 0 (38 :: 103 :: 116 :: 59 :: rest) = 62 :: unescapeFrom T 0 rest := by
  have hname : str "gt;" = [103, 116, 59] := by decide
  rw [hname] at h
  have hscan : scanName (103 :: 116 :: 59 :: rest) 1 = 4 := by
    simp +decide [scanName]
  have henc : EncodeRune 62 = [62] := by decide
  have hent : unescapeEntity T (38 :: 103 :: 116 :: 59 :: rest) = ([62], 4) := by
    unfold unescapeEntity
    simp +decide [hscan, h, henc]
  rw [unescapeFrom_amp, hent]
  rfl

theorem UnescapeString_bold (T : EntityTables) (hlt : T.entity (str "lt;") = 60)
    (hgt : T.entity (str "gt;") = 62) :
    UnescapeString T (str "&lt;b&gt;bold&lt;/b&gt;") = str "<b>bold</b>" := by
  have hin : str "&lt;b&gt;bold&lt;/b&gt;"
      = 38 :: 108 :: 116 :: 59 :: (str "b" ++ 38 :: 103 :: 116 :: 59 :: (str "bold"
          ++ 38 :: 108 :: 116 :: 59 :: (str "/b" ++ 38 :: 103 :: 116 :: 59 :: []))) := by
    decide
  rw [UnescapeString, if_pos (by decide), hin, unescapeFrom_lt T hlt,
    unescapeFrom_copy T _ _ (by decide), unescapeFrom_gt T hgt,
    unescapeFrom_copy T _ _ (by decide), unescapeFrom_lt T hlt,
    unescapeFrom_copy T _ _ (by decide), unescapeFrom_gt T hgt,
    unescapeFrom_no_amp T [] (by decide)]
  decide

theorem UnescapeString_br (T : EntityTables) (hlt : T.entity (str "lt;") = 60)
    (hgt : T.entity (str "gt;") = 62) :
    UnescapeString T (str "a&lt;br&gt;b") = str "a<br>b" := by
  have hin : str "a&lt;br&gt;b"
      = str "a" ++ 38 :: 108 :: 116 :: 59 :: (str "br" ++ 38 :: 103 :: 116 :: 59 :: str "b") := by
    decide
  rw [UnescapeString, if_pos (by decide), hin, unescapeFrom_copy T _ _ (by decide),
    unescapeFrom_lt T hlt, unescapeFrom_copy T _ _ (by decide), unescapeFrom_gt T hgt,
    unescapeFrom_no_amp T _ (by decide)]
  decide

/-- C15. Fixed pipeline order, decoding first: `stripHTMLish` decodes the
character references, then replaces the line-break tags, then removes the
tags, then removes the carriage returns; so, with `&lt;` and `&gt;` standing
for `<` and `>` as in the standard table, tags written with references are
treated as tags: `&lt;b&gt;bold&lt;/b&gt;` becomes `bold` and `a&lt;br&gt;b`
becomes `a`, newline, `b`, whereas removing the tags before decoding would
leave `<b>bold</b>`. -/
theorem decoding_before_tags (T : EntityTables) (hlt : T.entity (str "lt;") = 60)
    (hgt : T.entity (str "gt;") = 62) :
    (∀ s, stripHTMLish T s
        = ReplaceAll (ReplaceAllString matchTag
            (ReplaceAllString matchBR (UnescapeString T s) (str "\n")) (str ""))
            (str "\r") (str ""))
      ∧ stripHTMLish T (str "&lt;b&gt;bold&lt;/b&gt;") = str "bold"
      ∧ stripHTMLish T (str "a&lt;br&gt;b") = str "a\nb"
      ∧ UnescapeString T (ReplaceAllString matchTag (str "&lt;b&gt;bold&lt;/b&gt;") (str ""))
          = str "<b>bold</b>" := by
  refine ⟨fun s => rfl, ?_, ?_, ?_⟩
  · rw [stripHTMLish, UnescapeString_bold T hlt hgt]
    decide
  · rw [stripHTMLish, UnescapeString_br T hlt hgt]
    decide
  · have h : ReplaceAllString matchTag (str "&lt;b&gt;bold&lt;/b&gt;") (str "")
        = str "&lt;b&gt;bold&lt;/b&gt;" := by decide
    rw [h, UnescapeString_bold T hlt hgt]

/-- Witness of C15 with the excerpt of the standard table. -/
theorem decoding_before_tags_witness :
    sampleTables.entity (str "lt;") = 60 ∧ sampleTables.entity (str "gt;") = 62
      ∧ stripHTMLish sampleTables (str "&lt;b&gt;bold&lt;/b&gt;") = str "bold"
      ∧ stripHTMLish sampleTables (str "a&lt;br&gt;b") = str "a\nb" :=
  ⟨by decide, by decide,
    (decoding_before_tags sampleTables (by decide) (by decide)).2.1,
    (decoding_before_tags sampleTables (by decide) (by decide)).2.2.1⟩

/-! ## No tag is left -/

theorem stripHTMLish_noOpenTag (T : EntityTables) (s : Str) : noOpenTag (stripHTMLish T s) := by
  rw [stripHTMLish_eq]
  exact noOpenTag_filter _ (by decide) _ (noOpenTag_replaceAllFrom 0 _)

/-- What `reTag` matches starts with `<`, a byte other than `>`, and has a
`>` further on. -/
theorem matchTag_some (s : Str) (n : Nat) (h : matchTag s = some n) :
    ∃ c rest, s = 60 :: c :: rest ∧ c ≠ 62 ∧ (62 : UInt8) ∈ rest := by
  unfold matchTag at h
  split at h
  · rename_i lt c rest
    by_cases hc : lt = 60 ∧ c ≠ 62
    · rw [if_pos hc] at h
      by_cases hr : (62 : UInt8) ∈ rest
      · exact ⟨c, rest, by rw [hc.1], hc.2, hr⟩
      · rw [if_neg hr] at h
        exact absurd h (by simp)
    · rw [if_neg hc] at h
      exact absurd h (by simp)
  · exact absurd h (by simp)

/-- C16. No tag is left: for every input, the output of `stripHTMLish` has no
substring made of `<`, one or more bytes other than `>`, and `>`; the tag
pattern matches at no position of the output; and a `<` of the output is
followed by `>` directly or by no `>` at all. -/
theorem no_tag_left (T : EntityTables) (s : Str) :
    (∀ pre mid post : Str, mid ≠ [] → (62 : UInt8) ∉ mid →
        stripHTMLish T s ≠ pre ++ 60 :: mid ++ 62 :: post)
      ∧ (∀ pre suf : Str, stripHTMLish T s = pre ++ suf → matchTag suf = none)
      ∧ ∀ pre post : Str, stripHTMLish T s = pre ++ 60 :: post →
          post.head? = some 62 ∨ (62 : UInt8) ∉ post := by
  have hno := stripHTMLish_noOpenTag T s
  refine ⟨?_, ?_, ?_⟩
  · intro pre mid post hne hgt hout
    have hout2 : stripHTMLish T s = pre ++ 60 :: (mid ++ 62 :: post) := by
      rw [hout]; simp
    have hhead := noOpenTag_split _ hno pre _ hout2 (by simp)
    cases mid with
    | nil => exact hne rfl
    | cons m mid1 =>
      simp only [List.cons_append, List.head?_cons, Option.some.injEq] at hhead
      exact hgt (hhead ▸ List.mem_cons_self _ _)
  · intro pre suf hout
    by_contra hne
    obtain ⟨n, hn⟩ := Option.ne_none_iff_exists'.mp hne
    obtain ⟨c, rest, hsuf, hc, hgt⟩ := matchTag_some suf n hn
    have hhead := noOpenTag_split _ hno pre (c :: rest) (by rw [hout, hsuf])
      (List.mem_cons_of_mem _ hgt)
    simp only [List.head?_cons, Option.some.injEq] at hhead
    exact hc hhead
  · intro pre post hout
    by_cases hgt : (62 : UInt8) ∈ post
    · exact Or.inl (noOpenTag_split _ hno pre post hout hgt)
    · exact Or.inr hgt

/-- Witness of C16: `<><a>x>` is sanitized to `<>x>`, where the pattern does
not match and which is not `<`, `a`, `>`, `x>`. -/
theorem no_tag_left_witness :
    str "a" ≠ [] ∧ (62 : UInt8) ∉ str "a"
      ∧ stripHTMLish sampleTables (str "<><a>x>") ≠ [] ++ 60 :: str "a" ++ 62 :: str "x>"
      ∧ stripHTMLish sampleTables (str "<><a>x>") = [] ++ str "<>x>"
      ∧ matchTag (str "<>x>") = none :=
  ⟨by decide, by decide,
    (no_tag_left sampleTables (str "<><a>x>")).1 [] (str "a") (str "x>") (by decide)
      (by decide),
    by decide,
    (no_tag_left sampleTables (str "<><a>x>")).2.1 [] (str "<>x>") (by decide)⟩

/-! ## The clock and the random source reach the UID values only -/

theorem eraseUIDValue_token (p : IANAProperty) : (eraseUIDValue p).IANAToken = p.IANAToken := by
  unfold eraseUIDValue
  split <;> rfl

theorem eraseUIDValue_of_ne (p : IANAProperty) (h : p.IANAToken ≠ str "UID") :
    eraseUIDValue p = p := by
  unfold eraseUIDValue
  rw [if_neg h]

theorem map_erase_filter (q : Str → Bool) (ps : List IANAProperty) :
    (ps.filter (fun p => q p.IANAToken)).map eraseUIDValue
      = (ps.map eraseUIDValue).filter (fun p => q p.IANAToken) := by
  rw [List.filter_map]
  congr 1
  apply List.filter_congr
  intro p _
  simp [eraseUIDValue_token]

theorem sameButUID_RemoveProperty (a b : VEvent) (q : Str) (h : sameButUID a b) :
    sameButUID (RemoveProperty a q).1 (RemoveProperty b q).1 := by
  have h1 := map_erase_filter (fun tok => decide (tok ≠ q)) a.Properties
  have h2 := map_erase_filter (fun tok => decide (tok ≠ q)) b.Properties
  refine ⟨?_, h.2⟩
  simp only [RemoveProperty]
  rw [h1, h2, h.1]

theorem sameButUID_ReplaceProperty (a b : VEvent) (q v : Str) (h : sameButUID a b) :
    sameButUID (ReplaceProperty a q v) (ReplaceProperty b q v) := by
  have h1 := sameButUID_RemoveProperty a b q h
  refine ⟨?_, h1.2⟩
  simp only [ReplaceProperty, AddProperty, List.map_append, h1.1]

theorem sameButUID_newUID (e : VEvent) (v1 v2 : Str) :
    sameButUID (ReplaceProperty e (str "UID") v1) (ReplaceProperty e (str "UID") v2) := by
  refine ⟨?_, rfl⟩
  simp [ReplaceProperty, AddProperty, eraseUIDValue]

theorem sameButUID_removeProps (props : List Str) (a b : VEvent) (n m : Nat)
    (h : sameButUID a b) : sameButUID (removeProps props a n).1 (removeProps props b m).1 := by
  induction props generalizing a b n m with
  | nil => simpa [removeProps] using h
  | cons q props ih =>
    simp only [removeProps]
    exact ih _ _ _ _ (sameButUID_RemoveProperty a b q h)

theorem named_of_sameButUID (a b : VEvent) (name : Str) (hname : name ≠ str "UID")
    (h : sameButUID a b) : named name a.Properties = named name b.Properties := by
  have hid : ∀ ps : List IANAProperty,
      (named name ps).map eraseUIDValue = named name ps := by
    intro ps
    conv_rhs => rw [← List.map_id (named name ps)]
    apply List.map_congr_left
    intro p hp
    have htok : p.IANAToken = name := by
      simpa using (List.mem_filter.mp hp).2
    simp only [id]
    exact eraseUIDValue_of_ne p (htok ▸ hname)
  have hcomm : ∀ ps : List IANAProperty,
      (named name ps).map eraseUIDValue = named name (ps.map eraseUIDValue) :=
    fun ps => map_erase_filter (fun tok => decide (tok = name)) ps
  rw [← hid a.Properties, ← hid b.Properties, hcomm, hcomm, h.1]

theorem sameButUID_sanitizeProp (T : EntityTables) (a b : VEvent) (q : Str)
    (hq : q ≠ str "UID") (h : sameButUID a b) :
    sameButUID (sanitizeProp T a q) (sanitizeProp T b q) := by
  have hv : getPropValue a q = getPropValue b q := by
    rw [getPropValue_eq, getPropValue_eq, named_of_sameButUID a b q hq h]
  unfold sanitizeProp
  rw [hv]
  split
  · exact sameButUID_ReplaceProperty a b q _ h
  · exact h

theorem sameButUID_normalizeEvent (T : EntityTables) (t1 t2 : Int) (r1 r2 : RandRead)
    (i : Nat) (e : VEvent) (n m : Nat) :
    sameButUID (normalizeEvent T t1 r1 i e n).1 (normalizeEvent T t2 r2 i e m).1 := by
  simp only [normalizeEvent]
  exact sameButUID_sanitizeProp T _ _ _ (by decide)
    (sameButUID_sanitizeProp T _ _ _ (by decide)
      (sameButUID_removeProps recurrenceProps _ _ n m
        (sameButUID_newUID e (newUID t1 r1 i) (newUID t2 r2 i))))

/-- C18. The clock and the random source influence only UID values: two runs
of the loop on the same document, with any two clocks and any two random
sources (failing or not), report the same event count and the same
removed-count and return documents of the same length whose events at each
position are identical except for the values of the UID properties. -/
theorem clock_random_only_uid (T : EntityTables) (env1 env2 : Env) (events : List VEvent) :
    (normalize T env1 events).eventCount = (normalize T env2 events).eventCount
      ∧ (normalize T env1 events).recurrenceRemoved
          = (normalize T env2 events).recurrenceRemoved
      ∧ (normalize T env1 events).events.length = (normalize T env2 events).events.length
      ∧ ∀ (i : Nat) (a b : VEvent), (normalize T env1 events).events[i]? = some a →
          (normalize T env2 events).events[i]? = some b → sameButUID a b := by
  refine ⟨rfl, ?_, ?_, ?_⟩
  · simp only [normalize, normalizeFrom_snd]
  · simp only [normalize, normalizeFrom_length]
  · intro i a b ha hb
    rw [normalize_getElem?] at ha hb
    cases hi : events[i]? with
    | none => simp [hi] at ha
    | some e =>
      simp only [hi, Option.map_some', Option.some.injEq] at ha hb
      rw [← ha, ← hb]
      exact sameButUID_normalizeEvent T _ _ _ _ i e 0 0

/-- Witness of C18: the sample document under a failing random source at
time 5 and under a source giving eight bytes at time 77. -/
theorem clock_random_only_uid_witness :
    (normalize sampleTables (constEnv 5 none) sampleDoc).events[0]?
        = some ⟨[prop "SUMMARY" "s", prop "DESCRIPTION" "plain &amp; simple",
            prop "UID" "5-0@calendar.lkj.io", prop "LOCATION" "Room 1"], []⟩
      ∧ (normalize sampleTables (constEnv 77 (some ⟨[1, 2, 3, 4, 5, 6, 7, 255], rfl⟩))
            sampleDoc).events[0]?
          = some ⟨[prop "SUMMARY" "s", prop "DESCRIPTION" "plain &amp; simple",
              prop "UID" "77-01020304050607ff-0@calendar.lkj.io", prop "LOCATION" "Room 1"], []⟩
      ∧ sameButUID
          ⟨[prop "SUMMARY" "s", prop "DESCRIPTION" "plain &amp; simple",
            prop "UID" "5-0@calendar.lkj.io", prop "LOCATION" "Room 1"], []⟩
          ⟨[prop "SUMMARY" "s", prop "DESCRIPTION" "plain &amp; simple",
            prop "UID" "77-01020304050607ff-0@calendar.lkj.io", prop "LOCATION" "Room 1"], []⟩ :=
  ⟨by decide, by decide,
    (clock_random_only_uid sampleTables (constEnv 5 none)
      (constEnv 77 (some ⟨[1, 2, 3, 4, 5, 6, 7, 255], rfl⟩)) sampleDoc).2.2.2 0 _ _
      (by decide) (by decide)⟩

end IcsFixer
